import Mathlib

/-!
Shallow embedding of the Rule Composition Engine of `xui-client-geoip-rules`
(source: `src/src/types.ts` with `createServer`, `src/src/utils/removeDuplicateRules.ts`,
`src/src/utils/buildDomainRule.ts`).

JSON values are modelled by the inductive `Json`; JavaScript objects become
association lists that keep key order, as object spreads and property writes in
the source preserve it.  Fallible code (a JavaScript `throw`) is modelled with
`Except Unit`.
-/

namespace XuiGeoip

/-- JSON value, mirroring the `JsonValue` type of `src/src/types.ts` (with
`null` added, and numbers restricted to integers, which is all the engine ever
constructs or inspects).  Objects are ordered association lists, matching the
insertion-ordered keys of JavaScript objects. -/
inductive Json where
  | null : Json
  | bool : Bool → Json
  | num : Int → Json
  | str : String → Json
  | arr : List Json → Json
  | obj : List (String × Json) → Json

mutual

/-- Structural decidable equality on `Json` (the derive handler does not cover
nested inductives, so it is spelled out). -/
def Json.decEq : (a b : Json) → Decidable (a = b)
  | Json.null, Json.null => isTrue rfl
  | Json.null, Json.bool _ => isFalse (fun h => Json.noConfusion h)
  | Json.null, Json.num _ => isFalse (fun h => Json.noConfusion h)
  | Json.null, Json.str _ => isFalse (fun h => Json.noConfusion h)
  | Json.null, Json.arr _ => isFalse (fun h => Json.noConfusion h)
  | Json.null, Json.obj _ => isFalse (fun h => Json.noConfusion h)
  | Json.bool _, Json.null => isFalse (fun h => Json.noConfusion h)
  | Json.bool a, Json.bool b =>
    if h : a = b then isTrue (by rw [h])
    else isFalse (fun hh => by injection hh with h1; exact h h1)
  | Json.bool _, Json.num _ => isFalse (fun h => Json.noConfusion h)
  | Json.bool _, Json.str _ => isFalse (fun h => Json.noConfusion h)
  | Json.bool _, Json.arr _ => isFalse (fun h => Json.noConfusion h)
  | Json.bool _, Json.obj _ => isFalse (fun h => Json.noConfusion h)
  | Json.num _, Json.null => isFalse (fun h => Json.noConfusion h)
  | Json.num _, Json.bool _ => isFalse (fun h => Json.noConfusion h)
  | Json.num a, Json.num b =>
    if h : a = b then isTrue (by rw [h])
    else isFalse (fun hh => by injection hh with h1; exact h h1)
  | Json.num _, Json.str _ => isFalse (fun h => Json.noConfusion h)
  | Json.num _, Json.arr _ => isFalse (fun h => Json.noConfusion h)
  | Json.num _, Json.obj _ => isFalse (fun h => Json.noConfusion h)
  | Json.str _, Json.null => isFalse (fun h => Json.noConfusion h)
  | Json.str _, Json.bool _ => isFalse (fun h => Json.noConfusion h)
  | Json.str _, Json.num _ => isFalse (fun h => Json.noConfusion h)
  | Json.str a, Json.str b =>
    if h : a = b then isTrue (by rw [h])
    else isFalse (fun hh => by injection hh with h1; exact h h1)
  | Json.str _, Json.arr _ => isFalse (fun h => Json.noConfusion h)
  | Json.str _, Json.obj _ => isFalse (fun h => Json.noConfusion h)
  | Json.arr _, Json.null => isFalse (fun h => Json.noConfusion h)
  | Json.arr _, Json.bool _ => isFalse (fun h => Json.noConfusion h)
  | Json.arr _, Json.num _ => isFalse (fun h => Json.noConfusion h)
  | Json.arr _, Json.str _ => isFalse (fun h => Json.noConfusion h)
  | Json.arr xs, Json.arr ys =>
    match Json.decEqList xs ys with
    | isTrue h => isTrue (by rw [h])
    | isFalse h => isFalse (fun hh => by injection hh with h1; exact h h1)
  | Json.arr _, Json.obj _ => isFalse (fun h => Json.noConfusion h)
  | Json.obj _, Json.null => isFalse (fun h => Json.noConfusion h)
  | Json.obj _, Json.bool _ => isFalse (fun h => Json.noConfusion h)
  | Json.obj _, Json.num _ => isFalse (fun h => Json.noConfusion h)
  | Json.obj _, Json.str _ => isFalse (fun h => Json.noConfusion h)
  | Json.obj _, Json.arr _ => isFalse (fun h => Json.noConfusion h)
  | Json.obj xs, Json.obj ys =>
    match Json.decEqFields xs ys with
    | isTrue h => isTrue (by rw [h])
    | isFalse h => isFalse (fun hh => by injection hh with h1; exact h h1)
termination_by a _ => sizeOf a

/-- Decidable equality for lists of `Json`. -/
def Json.decEqList : (xs ys : List Json) → Decidable (xs = ys)
  | [], [] => isTrue rfl
  | [], _ :: _ => isFalse (fun h => List.noConfusion h)
  | _ :: _, [] => isFalse (fun h => List.noConfusion h)
  | x :: xs, y :: ys =>
    match Json.decEq x y with
    | isFalse h => isFalse (fun hh => by injection hh with h1 h2; exact h h1)
    | isTrue h1 =>
      match Json.decEqList xs ys with
      | isTrue h2 => isTrue (by rw [h1, h2])
      | isFalse h => isFalse (fun hh => by injection hh with ha hb; exact h hb)
termination_by xs _ => sizeOf xs

/-- Decidable equality for `Json` object field lists. -/
def Json.decEqFields : (xs ys : List (String × Json)) → Decidable (xs = ys)
  | [], [] => isTrue rfl
  | [], _ :: _ => isFalse (fun h => List.noConfusion h)
  | _ :: _, [] => isFalse (fun h => List.noConfusion h)
  | (k, v) :: xs, (k', v') :: ys =>
    if hk : k = k' then
      match Json.decEq v v' with
      | isFalse h =>
        isFalse (fun hh => by
          injection hh with h1 h2
          exact h (congrArg Prod.snd h1))
      | isTrue hv =>
        match Json.decEqFields xs ys with
        | isTrue h2 => isTrue (by rw [hk, hv, h2])
        | isFalse h => isFalse (fun hh => by injection hh with ha hb; exact h hb)
    else
      isFalse (fun hh => by
        injection hh with h1 h2
        exact hk (congrArg Prod.fst h1))
termination_by xs _ => sizeOf xs

end

instance : DecidableEq Json := Json.decEq

/-- Key lookup in an insertion-ordered association list, the model of a
JavaScript object/`Record` indexing (`RULE_PRESETS[code]`, `preset.country[iso]`,
`json.routing`): the first binding wins, a missing key is `undefined` (`none`). -/
def alookup {α : Type} : List (String × α) → String → Option α
  | [], _ => none
  | (k', v) :: rest, k => if k' = k then some v else alookup rest k

/-- JavaScript property read `j.k`: the first binding of key `k` when `j` is an
object, `undefined` (here `none`) otherwise — matching `(json.routing as JsonOptions)?.rules`
which yields `undefined` on missing keys and on non-object bases. -/
def getField : Json → String → Option Json
  | Json.obj fields, k => alookup fields k
  | _, _ => none

/-- JavaScript property write on an object's field list: an existing key is
updated in place (first binding), a new key is appended — the semantics of both
`rule.domain = …` assignment and of an object-literal field following a spread. -/
def setFieldList : List (String × Json) → String → Json → List (String × Json)
  | [], k, v => [(k, v)]
  | (k', w) :: rest, k, v =>
    if k' = k then (k, v) :: rest else (k', w) :: setFieldList rest k v

/-- JavaScript property write `j.k = v` on an object (no-op shape change is
never needed elsewhere: the source only assigns to objects). -/
def setField : Json → String → Json → Json
  | Json.obj fields, k, v => Json.obj (setFieldList fields k v)
  | j, _, _ => j

/-- JavaScript truthiness of a JSON value (`if (!rules) …`, `if (iso && …)`). -/
def truthy : Json → Bool
  | Json.null => false
  | Json.bool b => b
  | Json.num n => n != 0
  | Json.str s => s != ""
  | Json.arr _ => true
  | Json.obj _ => true

/-- The `SameValueZero` equality used by the JavaScript `Set` in
`removeDuplicateRules`: structural on primitives; `false` whenever an object or
array is involved, because every rule is deep-copied through
`JSON.parse(JSON.stringify(…))`, so object/array entries are fresh references
that the `Set` never identifies with anything already stored. -/
def jsEqPrim : Json → Json → Bool
  | Json.null, Json.null => true
  | Json.bool a, Json.bool b => a == b
  | Json.num a, Json.num b => a == b
  | Json.str a, Json.str b => a == b
  | _, _ => false

/-- `seenRules.has(v)` for the seen set modelled as the list of added values. -/
def seenHas (seen : List Json) (v : Json) : Bool :=
  seen.any (fun x => jsEqPrim x v)

/-- The side-effecting `Array.prototype.filter` callback of
`removeDuplicateRules` (lines 17–31): keep a value iff it is not in the seen
set, adding kept values to the set as the scan proceeds.  Returns the filtered
list and the updated seen set. -/
def filterNew (seen : List Json) : List Json → List Json × List Json
  | [] => ([], seen)
  | v :: vs =>
    if seenHas seen v then filterNew seen vs
    else
      let r := filterNew (v :: seen) vs
      (v :: r.1, r.2)

/-- `Array.isArray(x)` view: the element list when the (optional) value is an
array. -/
def asArr : Option Json → Option (List Json)
  | some (Json.arr xs) => some xs
  | _ => none

/-- Processing of one rule in the `removeDuplicateRules` loop (lines 11–44):
`hadDomains`/`hadIps` are `Array.isArray` on the original rule; each present
list is filtered through the shared seen set (domain first, then ip, matching
the statement order); the rule is dropped (`none`) iff it had at least one of
the two lists and both filtered lists are empty. -/
def processRule (seen : List Json) (r : Json) : Option Json × List Json :=
  match asArr (getField r "domain"), asArr (getField r "ip") with
  | none, none => (some r, seen)
  | some ds, none =>
    let p := filterNew seen ds
    let r1 := setField r "domain" (Json.arr p.1)
    (if p.1.length > 0 then some r1 else none, p.2)
  | none, some is_ =>
    let p := filterNew seen is_
    let r1 := setField r "ip" (Json.arr p.1)
    (if p.1.length > 0 then some r1 else none, p.2)
  | some ds, some is_ =>
    let pd := filterNew seen ds
    let pi_ := filterNew pd.2 is_
    let r1 := setField (setField r "domain" (Json.arr pd.1)) "ip" (Json.arr pi_.1)
    (if pd.1.length > 0 ∨ pi_.1.length > 0 then some r1 else none, pi_.2)

/-- The `for (const originalRule of rules)` loop building `finalRules`. -/
def dedupList (seen : List Json) : List Json → List Json
  | [] => []
  | r :: rs =>
    match processRule seen r with
    | (some r1, seen1) => r1 :: dedupList seen1 rs
    | (none, seen1) => dedupList seen1 rs

/-- `for…of` over a string iterates its code points; each character becomes a
one-character string value. -/
def strChars (s : String) : List Json :=
  s.toList.map (fun c => Json.str c.toString)

/-- `removeDuplicateRules` (`src/src/utils/removeDuplicateRules.ts`), on a JSON
document: read `json.routing?.rules`; if missing or falsy, return the document
unchanged; otherwise iterate it (`for…of`: arrays element-wise, strings
character-wise, any other truthy value throws — modelled as `Except.error`),
dedup the match lists against one shared seen set, and rebuild the document as
`{...json, routing: {...json.routing, rules: finalRules}}`. -/
def removeDuplicateRules (json : Json) : Except Unit Json :=
  match getField json "routing" with
  | none => Except.ok json
  | some routing =>
    match getField routing "rules" with
    | none => Except.ok json
    | some rules =>
      if truthy rules = false then Except.ok json
      else
        match rules with
        | Json.arr xs =>
          Except.ok (setField json "routing" (setField routing "rules" (Json.arr (dedupList [] xs))))
        | Json.str s =>
          Except.ok (setField json "routing" (setField routing "rules" (Json.arr (dedupList [] (strChars s)))))
        | _ => Except.error ()

/-! ## Preset data model and rule assembly (`createServer`, `src/src/types.ts`) -/

/-- A reverse preset (`REVERSE_PRESETS` entry): an exclude list of upper-cased
ISO codes parsed from a `!…` file name, the rule sequence, and the name. -/
structure ReversePreset where
  exclude : List String
  rules : List Json
  name : String

/-- A tag preset (`TAGS_PRESETS` entry): `base` and `default` rule lists plus a
country-keyed rule-list mapping. -/
structure TagPreset where
  base : List Json
  default : List Json
  country : List (String × List Json)

/-- The immutable in-memory preset index built at startup. -/
structure ServerState where
  rulePresets : List (String × List Json)
  overridePresets : List (String × Json)
  reversePresets : List ReversePreset
  tagsPresets : List (String × TagPreset)

/-- External data and configuration the handler closes over: `punycode.toASCII`,
the `COUNTRY_TLDS` map of `src/src/constants.ts`, the `world-countries` display
names (`countries.find((c) => c.cca2 === iso)?.name.common`), the
`directSameCountry` flag and the `publicURL` option (the empty string models an
unset, i.e. falsy, `publicURL`). -/
structure EngineEnv where
  toASCII : String → String
  countryTlds : String → Option (List String)
  countryName : String → Option String
  directSameCountry : Bool
  publicURL : String

/-- `parseExcludeList` models `baseName.slice(1).split(',').map((s) =>
s.trim().toUpperCase()).filter(Boolean)` (`createServer`, line 155): the
comma-split remainder of a `!…` file name, trimmed, upper-cased, with empty
pieces removed. -/
def parseExcludeList (s : String) : List String :=
  ((s.splitOn ",").map (fun x => x.trim.toUpper)).filter (fun x => x != "")

/-- `buildDomainRule` (`src/src/utils/buildDomainRule.ts`): `null` for an empty
TLD list, else a field rule whose domain list holds the punycode-encoded TLDs
prefixed with `domain:`, routed `direct`. -/
def buildDomainRule (toASCII : String → String) (tlds : List String) : Option Json :=
  if tlds.length = 0 then none
  else
    some (Json.obj
      [("type", Json.str "field"),
       ("domain", Json.arr (tlds.map (fun t => Json.str ("domain:" ++ toASCII t)))),
       ("outboundTag", Json.str "direct")])

/-- `const baseRules = RULE_PRESETS['BASE'] ?? []` (line 285). -/
def baseRulesOf (st : ServerState) : List Json :=
  (alookup st.rulePresets "BASE").getD []

/-- `const euRules = isEU ? RULE_PRESETS['EU'] ?? [] : []` with
`isEU = iso === 'EU'` (lines 252, 286). -/
def euRulesOf (st : ServerState) (iso : String) : List Json :=
  if iso = "EU" then (alookup st.rulePresets "EU").getD [] else []

/-- `const countryRules = RULE_PRESETS[iso] ?? RULE_PRESETS['DEFAULT'] ?? []`
(line 287). -/
def countryRulesOf (st : ServerState) (iso : String) : List Json :=
  ((alookup st.rulePresets iso).orElse (fun _ => alookup st.rulePresets "DEFAULT")).getD []

/-- `REVERSE_PRESETS.filter((p) => !p.exclude.has(iso)).flatMap((p) => p.rules)`
(lines 288–290). -/
def reverseRulesOf (st : ServerState) (iso : String) : List Json :=
  ((st.reversePresets.filter (fun p => !(p.exclude.contains iso))).map
    (fun p => p.rules)).flatten

/-- The per-tag contribution inside `activeTags.flatMap` (lines 291–297): an
unknown tag contributes nothing; a known tag contributes its `base` rules
followed by `preset.country[iso] ?? preset.default`. -/
def tagRulesOf (st : ServerState) (iso : String) (tag : String) : List Json :=
  match alookup st.tagsPresets tag with
  | none => []
  | some preset => preset.base ++ ((alookup preset.country iso).getD preset.default)

/-- `const tagsRules = activeTags.flatMap(…)` (lines 291–297). -/
def tagsRulesOf (st : ServerState) (iso : String) (activeTags : List String) : List Json :=
  (activeTags.map (tagRulesOf st iso)).flatten

/-- The IP-geomatch direct rule pushed for the requester's own country
(lines 303–307). -/
def geoipRule (iso : String) : Json :=
  Json.obj
    [("type", Json.str "field"),
     ("ip", Json.arr [Json.str ("geoip:" ++ iso.toLower)]),
     ("outboundTag", Json.str "direct")]

/-- `sameCountryRules` (lines 299–308): built only when `iso` is truthy
(non-empty) and `directSameCountry` is set; the TLD rule is pushed when
`buildDomainRule(COUNTRY_TLDS.get(iso) || [])` is non-null, then the geoip
rule. -/
def sameCountryRulesOf (env : EngineEnv) (iso : String) : List Json :=
  if iso != "" && env.directSameCountry then
    (match buildDomainRule env.toASCII ((env.countryTlds iso).getD []) with
     | some r => [r]
     | none => []) ++ [geoipRule iso]
  else []

/-- The self-direct rule for the configured public service domain
(lines 313–321). -/
def selfDirectRule (publicURL : String) : Json :=
  Json.obj
    [("type", Json.str "field"),
     ("domain", Json.arr [Json.str ("domain:" ++ publicURL)]),
     ("outboundTag", Json.str "direct")]

/-- `const directRules = publicURL ? [ … ] : []` (lines 313–321). -/
def directRulesOf (publicURL : String) : List Json :=
  if publicURL != "" then [selfDirectRule publicURL] else []

/-- The assembled rule list `rules` (lines 323–331), in the source's spread
order. -/
def assembleRules (env : EngineEnv) (st : ServerState) (iso : String)
    (activeTags : List String) : List Json :=
  directRulesOf env.publicURL ++ baseRulesOf st ++ tagsRulesOf st iso activeTags
    ++ sameCountryRulesOf env iso ++ reverseRulesOf st iso ++ euRulesOf st iso
    ++ countryRulesOf st iso

/-! ## Document merge and response (`createServer`, lines 333–355) -/

mutual

/-- JavaScript string coercion of a JSON value, as a template literal performs
it: primitives print their usual form, arrays join their coerced elements with
commas, plain objects print `[object Object]`. -/
def jsCoerceString : Json → String
  | Json.null => "null"
  | Json.bool b => if b then "true" else "false"
  | Json.num n => toString n
  | Json.str s => s
  | Json.arr xs => String.intercalate "," (jsCoerceElems xs)
  | Json.obj _ => "[object Object]"

/-- Elements of an array under string coercion (`Array.prototype.join`): `null`
becomes the empty string. -/
def jsCoerceElems : List Json → List String
  | [] => []
  | x :: rest =>
    (match x with
     | Json.null => ""
     | v => jsCoerceString v) :: jsCoerceElems rest

end

/-- `${x}` for a possibly-undefined property: `undefined` prints as the text
`undefined`. -/
def jsTemplate : Option Json → String
  | none => "undefined"
  | some j => jsCoerceString j

/-- The fields contributed by a JavaScript object spread `{...v}`: an object's
own fields; a string or array spreads under decimal index keys; other
primitives contribute nothing. -/
def jsSpreadFields : Json → List (String × Json)
  | Json.obj fields => fields
  | Json.str s => (s.toList.enum).map (fun p => (toString p.1, Json.str p.2.toString))
  | Json.arr xs => (xs.enum).map (fun p => (toString p.1, p.2))
  | _ => []

/-- Sequential object-literal assignment: each key/value updates an existing
key in place or appends — the semantics of spreads and literal fields in
`{...original, ...override, remarks: …, routing: …}`. -/
def objAssign (fields : List (String × Json)) : List (String × Json) → List (String × Json)
  | [] => fields
  | (k, v) :: rest => objAssign (setFieldList fields k v) rest

/-- The `remarks` value of the merged document (line 336):
`` `${original.remarks}${iso ? ` (${countries.find(…)?.name.common})` : ''}` ``. -/
def mergedRemarks (env : EngineEnv) (original : Json) (iso : String) : String :=
  jsTemplate (getField original "remarks") ++
    (if iso != "" then " (" ++ ((env.countryName iso).getD "undefined") ++ ")" else "")

/-- The merged response document (lines 333–341): upstream fields, then the
override preset for `iso` (falling back to `DEFAULT`, then `{}`), then the
`remarks` template, then the fixed `routing` object carrying the assembled
rules. -/
def mergeDocument (env : EngineEnv) (st : ServerState) (original : Json)
    (iso : String) (rules : List Json) : Json :=
  let override :=
    ((alookup st.overridePresets iso).orElse
      (fun _ => alookup st.overridePresets "DEFAULT")).getD (Json.obj [])
  let routing :=
    Json.obj [("domainStrategy", Json.str "IPIfNonMatch"), ("rules", Json.arr rules)]
  Json.obj
    (objAssign
      (objAssign
        (objAssign (objAssign [] (jsSpreadFields original)) (jsSpreadFields override))
        [("remarks", Json.str (mergedRemarks env original iso))])
      [("routing", routing)])

/-- The document serialized into the response body (lines 343–355).  With no
transform hook, the first `reply.send` to run is the final unconditional one,
so the merged document goes out untouched.  With a hook, the `try` branch sends
the deduplicated transformed document; if the hook or that deduplication
throws, the `catch` branch sends the deduplicated pre-hook document (a throw
there propagates, modelled as `Except.error`); the later unconditional
`reply.send` is ignored by Fastify because a reply was already sent. -/
def responseDoc (transform : Option (Json → String → Except Unit Json))
    (iso : String) (merged : Json) : Except Unit Json :=
  match transform with
  | none => Except.ok merged
  | some t =>
    match (t merged iso).bind removeDuplicateRules with
    | Except.ok doc => Except.ok doc
    | Except.error _ => removeDuplicateRules merged

/-- The composition the engine performs for one request once the upstream
document, the resolved country and the active tag list are in hand
(lines 285–355): assemble, merge, respond. -/
def handleRequest (env : EngineEnv) (st : ServerState)
    (transform : Option (Json → String → Except Unit Json)) (original : Json)
    (iso : String) (activeTags : List String) : Except Unit Json :=
  responseDoc transform iso
    (mergeDocument env st original iso (assembleRules env st iso activeTags))

/-! ## Include expansion (`expandIncludes`, `createServer` lines 109–128)

`expandIncludes` is a textual transformation: `text.replace` scans the raw text
for tokens `"@include <name>"` and replaces each by the callback's result,
copying everything else verbatim.  The scan is modelled by a token list: a
fragment text is a sequence of `Piece`s, literal runs interleaved with include
tokens (the lexing itself is the regular-expression engine, external to the
algorithm).  The include directory becomes a finite association list from full
paths to (tokenized) file contents; `existsSync`+`readFileSync` become a lookup,
a read failure coinciding with a missing file. -/

/-- One piece of a fragment text: a literal run, or an `"@include name"` token
(the name matched by `[A-Za-z0-9._-]+`). -/
inductive Piece where
  | lit : String → Piece
  | inc : String → Piece

instance : DecidableEq Piece := fun a b =>
  match a, b with
  | Piece.lit s, Piece.lit t =>
    if h : s = t then isTrue (by rw [h])
    else isFalse (fun hh => by injection hh with h1; exact h h1)
  | Piece.lit _, Piece.inc _ => isFalse (fun h => Piece.noConfusion h)
  | Piece.inc _, Piece.lit _ => isFalse (fun h => Piece.noConfusion h)
  | Piece.inc s, Piece.inc t =>
    if h : s = t then isTrue (by rw [h])
    else isFalse (fun hh => by injection hh with h1; exact h h1)

/-- The include directory: full path → tokenized file content. -/
def IncludeFS : Type := List (String × List Piece)

/-- `name.endsWith('.json') ? name : name + '.json'` followed by
`join(includesDir, fileName)` (lines 113–114). -/
def includeFullPath (includesDir name : String) : String :=
  includesDir ++ "/" ++ (if name.endsWith ".json" then name else name ++ ".json")

/-- Lookup of an include file (`existsSync` + `readFileSync`). -/
def lookupFile : IncludeFS → String → Option (List Piece)
  | [], _ => none
  | (k, v) :: rest, key => if k = key then some v else lookupFile rest key

/-- Number of include files not yet on the current expansion chain — the
termination measure: every recursive descent into a file adds that file's path
to `seen`. -/
def remainingFiles (fs : IncludeFS) (seen : List String) : Nat :=
  ((fs.map Prod.fst).filter (fun p => !(seen.contains p))).length

theorem lookupFile_mem {fs : IncludeFS} {key : String} {v : List Piece}
    (h : lookupFile fs key = some v) : key ∈ fs.map Prod.fst := by
  induction fs with
  | nil => simp [lookupFile] at h
  | cons hd tl ih =>
    rw [lookupFile] at h
    by_cases hk : hd.1 = key
    · simp [hk]
    · simp only [hk, if_false] at h
      simp [ih h]

theorem filter_length_le {α : Type} (L : List α) (q1 q2 : α → Bool)
    (himp : ∀ a, q1 a = true → q2 a = true) :
    (L.filter q1).length ≤ (L.filter q2).length := by
  induction L with
  | nil => simp
  | cons x L ih =>
    by_cases h1 : q1 x = true
    · simp [List.filter, h1, himp x h1]
      omega
    · have h1' : q1 x = false := by simpa using h1
      by_cases h2 : q2 x = true
      · simp [List.filter, h1', h2]
        omega
      · have h2' : q2 x = false := by simpa using h2
        simp [List.filter, h1', h2']
        omega

theorem filter_length_lt {α : Type} [DecidableEq α] (L : List α) (x : α)
    (q1 q2 : α → Bool) (himp : ∀ a, q1 a = true → q2 a = true) (hx : x ∈ L)
    (h1 : q1 x = false) (h2 : q2 x = true) :
    (L.filter q1).length < (L.filter q2).length := by
  induction L with
  | nil => simp at hx
  | cons y L ih =>
    rcases List.mem_cons.mp hx with hy | hmem
    · subst hy
      simp only [List.filter_cons, h1, h2, if_true, if_false, List.length_cons]
      exact Nat.lt_succ_of_le (filter_length_le L q1 q2 himp)
    · by_cases hq1 : q1 y = true
      · simp [List.filter, hq1, himp y hq1]
        have := ih hmem
        omega
      · have hq1' : q1 y = false := by simpa using hq1
        by_cases hq2 : q2 y = true
        · simp [List.filter, hq1', hq2]
          exact Nat.lt_succ_of_lt (ih hmem)
        · have hq2' : q2 y = false := by simpa using hq2
          simp [List.filter, hq1', hq2']
          exact ih hmem

theorem remainingFiles_lt (fs : IncludeFS) (seen : List String) (p : String)
    (hmem : p ∈ fs.map Prod.fst) (hseen : seen.contains p = false) :
    remainingFiles fs (p :: seen) < remainingFiles fs seen := by
  apply filter_length_lt (fs.map Prod.fst) p _ _ _ hmem
  · simp
  · simpa using hseen
  · intro a ha
    simp only [Bool.not_eq_true', List.contains_cons] at ha ⊢
    simp only [Bool.or_eq_false_iff] at ha
    exact ha.2

/-- The recursive include expansion (`expandIncludes`, lines 111–128): literal
runs are copied; for an include token the full path is computed, a path already
on the current expansion chain or a missing file yields the empty-object
literal, and otherwise the file's content is expanded with the path pushed on
the chain and the result is trimmed.  The function is total: each descent
consumes one file not yet on the chain, so expansion terminates on every input
over a finite include directory. -/
def expandPieces (includesDir : String) (fs : IncludeFS) (seen : List String) :
    List Piece → String
  | [] => ""
  | Piece.lit s :: rest => s ++ expandPieces includesDir fs seen rest
  | Piece.inc name :: rest =>
    (if hseen : (seen.contains (includeFullPath includesDir name)) = true then
      "\x7b\x7d"
     else
       match hfile : lookupFile fs (includeFullPath includesDir name) with
       | none => "\x7b\x7d"
       | some content =>
         (expandPieces includesDir fs (includeFullPath includesDir name :: seen)
           content).trim)
    ++ expandPieces includesDir fs seen rest
termination_by ps => (remainingFiles fs seen, List.length ps)
decreasing_by
  · apply Prod.Lex.right
    simp
  · apply Prod.Lex.left
    exact remainingFiles_lt fs seen _ (lookupFile_mem hfile) (by simpa using hseen)
  · apply Prod.Lex.right
    simp

/-- Rendering a tokenized text back to the raw string it stands for (a literal
run is itself; an include token renders as the `"@include name"` string the
regular expression matched). -/
def renderPieces : List Piece → String
  | [] => ""
  | Piece.lit s :: rest => s ++ renderPieces rest
  | Piece.inc name :: rest => "\"@include " ++ name ++ "\"" ++ renderPieces rest

/-- A text with no include tokens. -/
def noIncludes : List Piece → Bool
  | [] => true
  | Piece.lit _ :: rest => noIncludes rest
  | Piece.inc _ :: _ => false

/-! ## Specification-side definitions

The following definitions are written from the specification's and claims'
wording (not from the source) and are compared against the source-derived
definitions above in refinement theorems. -/

/-- A primitive JSON value (where the `Set`'s `SameValueZero` equality is
structural). -/
def isPrim : Json → Bool
  | Json.null => true
  | Json.bool _ => true
  | Json.num _ => true
  | Json.str _ => true
  | _ => false

/-- A string JSON value. -/
def isStrJson : Json → Bool
  | Json.str _ => true
  | _ => false

/-- A rule whose `domain`/`ip` lists, when present as arrays, hold only
strings — the Rule shape of the specification's data model (§3). -/
def wellFormedRule (r : Json) : Bool :=
  (match asArr (getField r "domain") with
   | some ds => ds.all isStrJson
   | none => true) &&
  (match asArr (getField r "ip") with
   | some is_ => is_.all isStrJson
   | none => true)

/-- A rule list in the sense of the specification's data model. -/
def wellFormedRules (xs : List Json) : Bool :=
  xs.all wellFormedRule

/-- All match entries of one rule: the elements of its `domain` array (if any)
followed by the elements of its `ip` array (if any). -/
def ruleMatchEntries (r : Json) : List Json :=
  ((asArr (getField r "domain")).getD []) ++ ((asArr (getField r "ip")).getD [])

/-- The union (as an ordered concatenation) of all rules' `ip`/`domain` match
entries. -/
def matchEntries (rules : List Json) : List Json :=
  (rules.map ruleMatchEntries).flatten

/-- Match entries of an optional surviving rule (`none` = dropped). -/
def outEntries : Option Json → List Json
  | none => []
  | some r => ruleMatchEntries r

/-- The shape invariant of a rule that survives the deduplication loop: if it
carries `domain`/`ip` arrays at all, at least one of them is non-empty (the
loop's keep condition evaluated on the rule as stored). -/
def keptRuleOk (r : Json) : Prop :=
  match asArr (getField r "domain"), asArr (getField r "ip") with
  | none, none => True
  | some ds, none => ds.length > 0
  | none, some is_ => is_.length > 0
  | some ds, some is_ => ds.length > 0 ∨ is_.length > 0

/-- Claim C4's reference filter: remove values already in the seen-set
(value equality) and insert the survivors. -/
def specValueFilter (seen : List Json) : List Json → List Json × List Json
  | [] => ([], seen)
  | v :: vs =>
    if seen.contains v then specValueFilter seen vs
    else
      let r := specValueFilter (v :: seen) vs
      (v :: r.1, r.2)

/-- Claim C4's reference treatment of one rule: a rule that originally had a
domain and/or ip list has each such list filtered through the shared seen-set
and is dropped iff both are empty afterwards; a rule that never had either
passes through unmodified. -/
def specProcessRule (seen : List Json) (r : Json) : Option Json × List Json :=
  match asArr (getField r "domain"), asArr (getField r "ip") with
  | none, none => (some r, seen)
  | some ds, none =>
    let p := specValueFilter seen ds
    let r1 := setField r "domain" (Json.arr p.1)
    (if p.1.length > 0 then some r1 else none, p.2)
  | none, some is_ =>
    let p := specValueFilter seen is_
    let r1 := setField r "ip" (Json.arr p.1)
    (if p.1.length > 0 then some r1 else none, p.2)
  | some ds, some is_ =>
    let pd := specValueFilter seen ds
    let pi_ := specValueFilter pd.2 is_
    let r1 := setField (setField r "domain" (Json.arr pd.1)) "ip" (Json.arr pi_.1)
    (if pd.1.length > 0 ∨ pi_.1.length > 0 then some r1 else none, pi_.2)

/-- Claim C4's reference computation: iterate the rules in order carrying one
seen-set, preserving the order of surviving rules. -/
def specDedupRules (seen : List Json) : List Json → List Json
  | [] => []
  | r :: rs =>
    match specProcessRule seen r with
    | (some r1, seen1) => r1 :: specDedupRules seen1 rs
    | (none, seen1) => specDedupRules seen1 rs

/-- Claim C7's wording of the per-tag contribution: the tag's base rules,
followed by its country-specific rules when the resolved code has an entry in
the tag's country mapping and by its default rules otherwise; a tag name with
no loaded tag preset contributes nothing. -/
def specTagContribution (st : ServerState) (iso : String) (tag : String) : List Json :=
  match alookup st.tagsPresets tag with
  | none => []
  | some preset =>
    preset.base ++
      (match alookup preset.country iso with
       | some cr => cr
       | none => preset.default)

/-- Claim C3's wording of the assembled rule list: the self-direct rule
(present iff a public service domain is configured), the BASE preset rules, the
per-tag rules in activation order, the same-country direct rules (present only
if enabled and a country was resolved, TLD rule omitted when the country has no
known TLDs), the full rule sequence of every reverse preset whose exclude set
does not contain the resolved code in load order, the EU preset rules only when
the resolved code is exactly `EU`, and finally the preset for the resolved
country code or the DEFAULT preset when no country-specific preset exists. -/
def specAssembleC3 (env : EngineEnv) (st : ServerState) (iso : String)
    (activeTags : List String) : List Json :=
  (if env.publicURL != "" then [selfDirectRule env.publicURL] else [])
  ++ (alookup st.rulePresets "BASE").getD []
  ++ (activeTags.map (specTagContribution st iso)).flatten
  ++ (if env.directSameCountry && iso != "" then
        (match buildDomainRule env.toASCII ((env.countryTlds iso).getD []) with
         | some r => [r]
         | none => []) ++ [geoipRule iso]
      else [])
  ++ ((st.reversePresets.filter (fun p => !(p.exclude.contains iso))).map
      (fun p => p.rules)).flatten
  ++ (if iso = "EU" then (alookup st.rulePresets "EU").getD [] else [])
  ++ (match alookup st.rulePresets iso with
      | some rs => rs
      | none => (alookup st.rulePresets "DEFAULT").getD [])

/-- Pairwise distinctness under the deduplicator's set equality. -/
def JDistinct (a b : Json) : Prop := jsEqPrim a b = false

/-! ## Concrete instances (used in counterexamples and witnesses) -/

/-- A field rule matching the single IP value `a`. -/
def ruleA : Json :=
  Json.obj [("type", Json.str "field"), ("ip", Json.arr [Json.str "a"]),
    ("outboundTag", Json.str "x")]

/-- A reverse-preset rule matching the single IP value `b`. -/
def ruleB : Json :=
  Json.obj [("type", Json.str "field"), ("ip", Json.arr [Json.str "b"]),
    ("outboundTag", Json.str "x")]

/-- A DEFAULT-preset rule matching the single domain value `d`. -/
def ruleD : Json :=
  Json.obj [("type", Json.str "field"), ("domain", Json.arr [Json.str "d"]),
    ("outboundTag", Json.str "x")]

/-- Engine environment with no public URL, same-country routing disabled, and a
country dataset that resolves only `DE`. -/
def envC : EngineEnv :=
  { toASCII := fun s => s
    countryTlds := fun _ => none
    countryName := fun i => if i = "DE" then some "Germany" else none
    directSameCountry := false
    publicURL := "" }

/-- Preset state where `BASE` holds the same rule twice. -/
def stC1 : ServerState :=
  { rulePresets := [("BASE", [ruleA, ruleA])]
    overridePresets := []
    reversePresets := []
    tagsPresets := [] }

/-- An upstream document carrying only a remarks string. -/
def originalC1 : Json := Json.obj [("remarks", Json.str "r")]

/-- The merged document produced for a request against `stC1` with an
unresolved country and no tags. -/
def mergedC1 : Json :=
  mergeDocument envC stC1 originalC1 "" (assembleRules envC stC1 "" [])

/-- Preset state with one reverse preset excluding `US` and a `DEFAULT`
preset. -/
def stC2 : ServerState :=
  { rulePresets := [("DEFAULT", [ruleD])]
    overridePresets := []
    reversePresets := [{ exclude := ["US"], rules := [ruleB], name := "!US" }]
    tagsPresets := [] }

/-- A rule whose only match entry is the non-primitive value `{}`. -/
def ruleObjEntry1 : Json :=
  Json.obj [("type", Json.str "field"), ("domain", Json.arr [Json.obj []]),
    ("outboundTag", Json.str "p")]

/-- A second rule carrying the same non-primitive match value `{}`. -/
def ruleObjEntry2 : Json :=
  Json.obj [("type", Json.str "field"), ("domain", Json.arr [Json.obj []]),
    ("outboundTag", Json.str "q")]

/-- A document whose rule list carries the match value `{}` twice. -/
def docC6 : Json :=
  Json.obj [("routing", Json.obj [("rules", Json.arr [ruleObjEntry1, ruleObjEntry2])])]

/-- The routing object of the C4 witness document. -/
def routingC4 : Json := Json.obj [("rules", Json.arr [ruleA, ruleA])]

/-- The C4 witness document: a duplicated rule list under `routing.rules`. -/
def docC4 : Json := Json.obj [("routing", routingC4)]

/-- A one-file include directory: `inc/a.json` holds the literal text `1`. -/
def fsC8 : IncludeFS := [("inc/a.json", [Piece.lit "1"])]

/-! ## Basic lemmas on the JavaScript-object model -/

theorem jsEqPrim_eq_true_iff (a b : Json) :
    jsEqPrim a b = true ↔ a = b ∧ isPrim a = true := by
  cases a <;> cases b <;> simp [jsEqPrim, isPrim]

theorem seenHas_eq_true_iff (seen : List Json) (v : Json) :
    seenHas seen v = true ↔ isPrim v = true ∧ v ∈ seen := by
  simp only [seenHas, List.any_eq_true, jsEqPrim_eq_true_iff]
  constructor
  · rintro ⟨x, hx, rfl, hp⟩
    exact ⟨hp, hx⟩
  · rintro ⟨hp, hv⟩
    exact ⟨v, hv, rfl, hp⟩

theorem seenHas_eq_false_iff (seen : List Json) (v : Json) :
    seenHas seen v = false ↔ ¬(isPrim v = true ∧ v ∈ seen) := by
  have h := seenHas_eq_true_iff seen v
  constructor
  · intro h1 hc
    rw [h.mpr hc] at h1
    exact Bool.noConfusion h1
  · intro h1
    cases hb : seenHas seen v with
    | false => rfl
    | true => exact absurd (h.mp hb) h1

theorem alookup_setFieldList_self (fields : List (String × Json)) (k : String) (v : Json) :
    alookup (setFieldList fields k v) k = some v := by
  induction fields with
  | nil => simp [setFieldList, alookup]
  | cons hd tl ih =>
    obtain ⟨k1, w⟩ := hd
    by_cases h : k1 = k
    · simp [setFieldList, h, alookup]
    · simp [setFieldList, h, alookup, ih]

theorem alookup_setFieldList_ne (fields : List (String × Json)) (k k' : String)
    (v : Json) (h : k' ≠ k) :
    alookup (setFieldList fields k v) k' = alookup fields k' := by
  induction fields with
  | nil =>
    have h2 : ¬(k = k') := fun hh => h hh.symm
    simp [setFieldList, alookup, h2]
  | cons hd tl ih =>
    obtain ⟨k1, w⟩ := hd
    by_cases h1 : k1 = k
    · subst h1
      have h2 : ¬(k1 = k') := fun hh => h hh.symm
      simp [setFieldList, alookup, h2]
    · simp only [setFieldList, h1, if_false, alookup]
      by_cases h2 : k1 = k'
      · simp [h2]
      · simp [h2, ih]

theorem setFieldList_eq_self (fields : List (String × Json)) (k : String) (v : Json)
    (h : alookup fields k = some v) : setFieldList fields k v = fields := by
  induction fields with
  | nil => simp [alookup] at h
  | cons hd tl ih =>
    obtain ⟨k1, w⟩ := hd
    by_cases h1 : k1 = k
    · subst h1
      simp only [alookup, if_true, Option.some.injEq, if_pos rfl] at h
      simp [setFieldList, h]
    · simp only [alookup, h1, if_false] at h
      simp [setFieldList, h1, ih h]

theorem getField_setField_self (fields : List (String × Json)) (k : String) (v : Json) :
    getField (setField (Json.obj fields) k v) k = some v := by
  simp [setField, getField, alookup_setFieldList_self]

theorem getField_setField_ne (fields : List (String × Json)) (k k' : String)
    (v : Json) (h : k' ≠ k) :
    getField (setField (Json.obj fields) k v) k' = getField (Json.obj fields) k' := by
  simp [setField, getField, alookup_setFieldList_ne fields k k' v h]

theorem setField_eq_self (j : Json) (k : String) (v : Json)
    (h : getField j k = some v) : setField j k v = j := by
  cases j <;> simp [getField] at h
  case obj fields => simp [setField, setFieldList_eq_self fields k v h]

theorem getField_some_obj {j : Json} {k : String} {v : Json}
    (h : getField j k = some v) : ∃ fields, j = Json.obj fields := by
  cases j <;> simp [getField] at h
  case obj fields => exact ⟨fields, rfl⟩

theorem asArr_eq_some {o : Option Json} {xs : List Json} (h : asArr o = some xs) :
    o = some (Json.arr xs) := by
  match o with
  | some (Json.arr ys) =>
    simp [asArr] at h
    simp [h]
  | none => simp [asArr] at h
  | some Json.null => simp [asArr] at h
  | some (Json.bool _) => simp [asArr] at h
  | some (Json.num _) => simp [asArr] at h
  | some (Json.str _) => simp [asArr] at h
  | some (Json.obj _) => simp [asArr] at h

theorem getField_setField_gen_self (j : Json) (k : String) (v w : Json)
    (h : getField j k = some w) : getField (setField j k v) k = some v := by
  obtain ⟨fields, rfl⟩ := getField_some_obj h
  exact getField_setField_self fields k v

theorem getField_setField_gen_ne (j : Json) (k k' : String) (v w : Json)
    (h : getField j k = some w) (hne : k' ≠ k) :
    getField (setField j k v) k' = getField j k' := by
  obtain ⟨fields, rfl⟩ := getField_some_obj h
  exact getField_setField_ne fields k k' v hne

theorem seenHas_nil (v : Json) : seenHas [] v = false := by
  simp [seenHas]

theorem seenHas_cons (x : Json) (seen : List Json) (v : Json) :
    seenHas (x :: seen) v = (jsEqPrim x v || seenHas seen v) := by
  simp [seenHas]

theorem seenHas_mono {seen1 seen2 : List Json}
    (hsub : ∀ x, x ∈ seen1 → x ∈ seen2) (v : Json)
    (h : seenHas seen2 v = false) : seenHas seen1 v = false := by
  rw [seenHas_eq_false_iff] at h ⊢
  rintro ⟨hp, hm⟩
  exact h ⟨hp, hsub v hm⟩

/-! ## Properties of the deduplication filter and loop -/

theorem filterNew_mem_two (vs : List Json) (seen : List Json) (x : Json) :
    x ∈ (filterNew seen vs).2 ↔ x ∈ seen ∨ x ∈ (filterNew seen vs).1 := by
  induction vs generalizing seen with
  | nil => simp [filterNew]
  | cons v vs ih =>
    by_cases h : seenHas seen v = true
    · simp only [filterNew]
      rw [if_pos h]
      exact ih seen
    · simp only [filterNew]
      rw [if_neg h]
      show x ∈ (filterNew (v :: seen) vs).2 ↔
        x ∈ seen ∨ x ∈ v :: (filterNew (v :: seen) vs).1
      rw [ih (v :: seen)]
      simp only [List.mem_cons]
      tauto

theorem filterNew_seen_sub (vs : List Json) (seen : List Json) (x : Json)
    (hx : x ∈ seen) : x ∈ (filterNew seen vs).2 :=
  (filterNew_mem_two vs seen x).mpr (Or.inl hx)

theorem filterNew_fresh (vs : List Json) (seen : List Json) :
    ∀ v ∈ (filterNew seen vs).1, seenHas seen v = false := by
  induction vs generalizing seen with
  | nil => simp [filterNew]
  | cons v vs ih =>
    by_cases h : seenHas seen v = true
    · simp only [filterNew]
      rw [if_pos h]
      exact ih seen
    · simp only [filterNew]
      rw [if_neg h]
      show ∀ w ∈ v :: (filterNew (v :: seen) vs).1, seenHas seen w = false
      intro w hw
      rcases List.mem_cons.mp hw with rfl | hw1
      · exact Bool.eq_false_iff.mpr h
      · exact
          seenHas_mono (fun x hx => List.mem_cons_of_mem v hx) w (ih (v :: seen) w hw1)

theorem filterNew_pairwise (vs : List Json) (seen : List Json) :
    List.Pairwise JDistinct (filterNew seen vs).1 := by
  induction vs generalizing seen with
  | nil => simp [filterNew]
  | cons v vs ih =>
    by_cases h : seenHas seen v = true
    · simp only [filterNew]
      rw [if_pos h]
      exact ih seen
    · simp only [filterNew]
      rw [if_neg h]
      show List.Pairwise JDistinct (v :: (filterNew (v :: seen) vs).1)
      refine List.Pairwise.cons ?_ (ih (v :: seen))
      intro w hw
      have hf := filterNew_fresh vs (v :: seen) w hw
      unfold JDistinct
      by_contra hc
      have hc1 : jsEqPrim v w = true := by
        revert hc
        cases jsEqPrim v w <;> simp
      obtain ⟨h1, hp⟩ := (jsEqPrim_eq_true_iff v w).mp hc1
      rw [seenHas_eq_false_iff] at hf
      apply hf
      refine ⟨?_, ?_⟩
      · rw [← h1]
        exact hp
      · rw [← h1]
        exact List.mem_cons_self v seen

theorem filterNew_id (vs : List Json) (seen : List Json)
    (hfresh : ∀ v ∈ vs, seenHas seen v = false)
    (hpw : List.Pairwise JDistinct vs) : (filterNew seen vs).1 = vs := by
  induction vs generalizing seen with
  | nil => simp [filterNew]
  | cons v vs ih =>
    have hv := hfresh v (List.mem_cons_self v vs)
    have hv1 : ¬(seenHas seen v = true) := by simp [hv]
    simp only [filterNew]
    rw [if_neg hv1]
    show v :: (filterNew (v :: seen) vs).1 = v :: vs
    congr 1
    apply ih (v :: seen)
    · intro w hw
      rw [seenHas_cons]
      have h1 : jsEqPrim v w = false := (List.pairwise_cons.mp hpw).1 w hw
      rw [h1, hfresh w (List.mem_cons_of_mem v hw)]
      rfl
    · exact (List.pairwise_cons.mp hpw).2

theorem entries_setField_domain (r : Json) (ds xs : List Json)
    (hD : asArr (getField r "domain") = some ds)
    (hI : asArr (getField r "ip") = none) :
    ruleMatchEntries (setField r "domain" (Json.arr xs)) = xs := by
  have hD1 := asArr_eq_some hD
  unfold ruleMatchEntries
  rw [getField_setField_gen_self r "domain" (Json.arr xs) _ hD1,
    getField_setField_gen_ne r "domain" "ip" (Json.arr xs) _ hD1 (by decide), hI]
  simp [asArr]

theorem entries_setField_ip (r : Json) (is_ xs : List Json)
    (hD : asArr (getField r "domain") = none)
    (hI : asArr (getField r "ip") = some is_) :
    ruleMatchEntries (setField r "ip" (Json.arr xs)) = xs := by
  have hI1 := asArr_eq_some hI
  unfold ruleMatchEntries
  rw [getField_setField_gen_self r "ip" (Json.arr xs) _ hI1,
    getField_setField_gen_ne r "ip" "domain" (Json.arr xs) _ hI1 (by decide), hD]
  simp [asArr]

theorem entries_setField_both (r : Json) (ds is_ xs ys : List Json)
    (hD : asArr (getField r "domain") = some ds)
    (hI : asArr (getField r "ip") = some is_) :
    ruleMatchEntries (setField (setField r "domain" (Json.arr xs)) "ip" (Json.arr ys))
      = xs ++ ys := by
  have hD1 := asArr_eq_some hD
  have hI1 := asArr_eq_some hI
  have hip : getField (setField r "domain" (Json.arr xs)) "ip" = some (Json.arr is_) := by
    rw [getField_setField_gen_ne r "domain" "ip" (Json.arr xs) _ hD1 (by decide), hI1]
  unfold ruleMatchEntries
  rw [getField_setField_gen_self _ "ip" (Json.arr ys) _ hip,
    getField_setField_gen_ne _ "ip" "domain" (Json.arr ys) _ hip (by decide),
    getField_setField_gen_self r "domain" (Json.arr xs) _ hD1]
  simp [asArr]

theorem processRule_mem_two (seen : List Json) (r : Json) (x : Json) :
    x ∈ (processRule seen r).2 ↔ x ∈ seen ∨ x ∈ outEntries (processRule seen r).1 := by
  cases hD : asArr (getField r "domain") with
  | none =>
    cases hI : asArr (getField r "ip") with
    | none =>
      simp only [processRule, hD, hI, outEntries, ruleMatchEntries]
      simp
    | some is_ =>
      simp only [processRule, hD, hI]
      by_cases hlen : (filterNew seen is_).1.length > 0
      · rw [if_pos hlen]
        show x ∈ (filterNew seen is_).2 ↔ x ∈ seen ∨
          x ∈ outEntries (some (setField r "ip" (Json.arr (filterNew seen is_).1)))
        rw [outEntries, entries_setField_ip r is_ _ hD hI]
        exact filterNew_mem_two is_ seen x
      · rw [if_neg hlen]
        have hnil : (filterNew seen is_).1 = [] := by
          rcases List.eq_nil_or_concat (filterNew seen is_).1 with h | ⟨l, a, h⟩
          · exact h
          · exfalso
            apply hlen
            rw [h]
            simp
        show x ∈ (filterNew seen is_).2 ↔ x ∈ seen ∨ x ∈ outEntries none
        rw [outEntries]
        have h2 := filterNew_mem_two is_ seen x
        rw [hnil] at h2
        simpa using h2
  | some ds =>
    cases hI : asArr (getField r "ip") with
    | none =>
      simp only [processRule, hD, hI]
      by_cases hlen : (filterNew seen ds).1.length > 0
      · rw [if_pos hlen]
        show x ∈ (filterNew seen ds).2 ↔ x ∈ seen ∨
          x ∈ outEntries (some (setField r "domain" (Json.arr (filterNew seen ds).1)))
        rw [outEntries, entries_setField_domain r ds _ hD hI]
        exact filterNew_mem_two ds seen x
      · rw [if_neg hlen]
        have hnil : (filterNew seen ds).1 = [] := by
          rcases List.eq_nil_or_concat (filterNew seen ds).1 with h | ⟨l, a, h⟩
          · exact h
          · exfalso
            apply hlen
            rw [h]
            simp
        show x ∈ (filterNew seen ds).2 ↔ x ∈ seen ∨ x ∈ outEntries none
        rw [outEntries]
        have h2 := filterNew_mem_two ds seen x
        rw [hnil] at h2
        simpa using h2
    | some is_ =>
      simp only [processRule, hD, hI]
      have hmem2 : ∀ y, y ∈ (filterNew (filterNew seen ds).2 is_).2 ↔
          y ∈ seen ∨ (y ∈ (filterNew seen ds).1 ∨ y ∈ (filterNew (filterNew seen ds).2 is_).1) := by
        intro y
        rw [filterNew_mem_two is_ (filterNew seen ds).2 y, filterNew_mem_two ds seen y]
        tauto
      by_cases hlen : (filterNew seen ds).1.length > 0 ∨
          (filterNew (filterNew seen ds).2 is_).1.length > 0
      · rw [if_pos hlen]
        show x ∈ (filterNew (filterNew seen ds).2 is_).2 ↔ x ∈ seen ∨
          x ∈ outEntries (some (setField (setField r "domain"
            (Json.arr (filterNew seen ds).1)) "ip"
            (Json.arr (filterNew (filterNew seen ds).2 is_).1)))
        rw [outEntries, entries_setField_both r ds is_ _ _ hD hI]
        rw [hmem2 x]
        simp [List.mem_append]
      · rw [if_neg hlen]
        push_neg at hlen
        have hd0 : (filterNew seen ds).1 = [] := by
          have := hlen.1
          rcases List.eq_nil_or_concat (filterNew seen ds).1 with h | ⟨l, a, h⟩
          · exact h
          · exfalso
            rw [h] at this
            simp at this
        have hi0 : (filterNew (filterNew seen ds).2 is_).1 = [] := by
          have := hlen.2
          rcases List.eq_nil_or_concat (filterNew (filterNew seen ds).2 is_).1 with h | ⟨l, a, h⟩
          · exact h
          · exfalso
            rw [h] at this
            simp at this
        show x ∈ (filterNew (filterNew seen ds).2 is_).2 ↔ x ∈ seen ∨ x ∈ outEntries none
        rw [outEntries]
        have h2 := hmem2 x
        rw [hd0, hi0] at h2
        simpa using h2

theorem JDistinct_of_fresh {b : Json} {s : List Json} (hb : seenHas s b = false)
    (a : Json) (ha : a ∈ s) : JDistinct a b := by
  unfold JDistinct
  by_contra hc
  have hc1 : jsEqPrim a b = true := by
    revert hc
    cases jsEqPrim a b <;> simp
  obtain ⟨heq, hp⟩ := (jsEqPrim_eq_true_iff a b).mp hc1
  rw [seenHas_eq_false_iff] at hb
  exact hb ⟨heq ▸ hp, heq ▸ ha⟩

theorem seenHas_false_of_parts {e : Json} {newSeen seen kept : List Json}
    (hbound : ∀ x, x ∈ newSeen → x ∈ seen ∨ x ∈ kept)
    (hfresh : seenHas seen e = false)
    (hdist : ∀ a ∈ kept, JDistinct a e) :
    seenHas newSeen e = false := by
  rw [seenHas_eq_false_iff] at hfresh ⊢
  rintro ⟨hp, hm⟩
  rcases hbound e hm with h1 | h1
  · exact hfresh ⟨hp, h1⟩
  · have hd := hdist e h1
    unfold JDistinct at hd
    rw [(jsEqPrim_eq_true_iff e e).mpr ⟨rfl, hp⟩] at hd
    exact Bool.noConfusion hd

theorem processRule_fresh_pairwise (seen : List Json) (r : Json) :
    (∀ e ∈ outEntries (processRule seen r).1, seenHas seen e = false) ∧
    List.Pairwise JDistinct (outEntries (processRule seen r).1) := by
  cases hD : asArr (getField r "domain") with
  | none =>
    cases hI : asArr (getField r "ip") with
    | none =>
      simp only [processRule, hD, hI, outEntries, ruleMatchEntries]
      simp
    | some is_ =>
      simp only [processRule, hD, hI]
      by_cases hlen : (filterNew seen is_).1.length > 0
      · rw [if_pos hlen]
        show (∀ e ∈ outEntries (some (setField r "ip" (Json.arr (filterNew seen is_).1))),
            seenHas seen e = false) ∧
          List.Pairwise JDistinct
            (outEntries (some (setField r "ip" (Json.arr (filterNew seen is_).1))))
        rw [outEntries, entries_setField_ip r is_ _ hD hI]
        exact ⟨filterNew_fresh is_ seen, filterNew_pairwise is_ seen⟩
      · rw [if_neg hlen]
        show (∀ e ∈ outEntries none, seenHas seen e = false) ∧
          List.Pairwise JDistinct (outEntries none)
        simp [outEntries]
  | some ds =>
    cases hI : asArr (getField r "ip") with
    | none =>
      simp only [processRule, hD, hI]
      by_cases hlen : (filterNew seen ds).1.length > 0
      · rw [if_pos hlen]
        show (∀ e ∈ outEntries (some (setField r "domain" (Json.arr (filterNew seen ds).1))),
            seenHas seen e = false) ∧
          List.Pairwise JDistinct
            (outEntries (some (setField r "domain" (Json.arr (filterNew seen ds).1))))
        rw [outEntries, entries_setField_domain r ds _ hD hI]
        exact ⟨filterNew_fresh ds seen, filterNew_pairwise ds seen⟩
      · rw [if_neg hlen]
        show (∀ e ∈ outEntries none, seenHas seen e = false) ∧
          List.Pairwise JDistinct (outEntries none)
        simp [outEntries]
    | some is_ =>
      simp only [processRule, hD, hI]
      by_cases hlen : (filterNew seen ds).1.length > 0 ∨
          (filterNew (filterNew seen ds).2 is_).1.length > 0
      · rw [if_pos hlen]
        show (∀ e ∈ outEntries (some (setField (setField r "domain"
              (Json.arr (filterNew seen ds).1)) "ip"
              (Json.arr (filterNew (filterNew seen ds).2 is_).1))),
            seenHas seen e = false) ∧
          List.Pairwise JDistinct
            (outEntries (some (setField (setField r "domain"
              (Json.arr (filterNew seen ds).1)) "ip"
              (Json.arr (filterNew (filterNew seen ds).2 is_).1))))
        rw [outEntries, entries_setField_both r ds is_ _ _ hD hI]
        have hsub : ∀ x, x ∈ seen → x ∈ (filterNew seen ds).2 :=
          fun x hx => filterNew_seen_sub ds seen x hx
        constructor
        · intro e he
          rcases List.mem_append.mp he with h1 | h1
          · exact filterNew_fresh ds seen e h1
          · exact seenHas_mono hsub e (filterNew_fresh is_ (filterNew seen ds).2 e h1)
        · rw [List.pairwise_append]
          refine ⟨filterNew_pairwise ds seen, filterNew_pairwise is_ (filterNew seen ds).2, ?_⟩
          intro a ha b hb
          exact JDistinct_of_fresh (filterNew_fresh is_ (filterNew seen ds).2 b hb) a
            ((filterNew_mem_two ds seen a).mpr (Or.inr ha))
      · rw [if_neg hlen]
        show (∀ e ∈ outEntries none, seenHas seen e = false) ∧
          List.Pairwise JDistinct (outEntries none)
        simp [outEntries]

theorem processRule_kept (seen : List Json) (r r1 : Json)
    (h : (processRule seen r).1 = some r1) : keptRuleOk r1 := by
  cases hD : asArr (getField r "domain") with
  | none =>
    cases hI : asArr (getField r "ip") with
    | none =>
      simp only [processRule, hD, hI] at h
      injection h with h1
      subst h1
      simp only [keptRuleOk, hD, hI]
    | some is_ =>
      simp only [processRule, hD, hI] at h
      by_cases hlen : (filterNew seen is_).1.length > 0
      · rw [if_pos hlen] at h
        injection h with h1
        subst h1
        have hget : getField (setField r "ip" (Json.arr (filterNew seen is_).1)) "ip"
            = some (Json.arr (filterNew seen is_).1) :=
          getField_setField_gen_self r "ip" _ _ (asArr_eq_some hI)
        have hgetD : getField (setField r "ip" (Json.arr (filterNew seen is_).1)) "domain"
            = getField r "domain" :=
          getField_setField_gen_ne r "ip" "domain" _ _ (asArr_eq_some hI) (by decide)
        simp only [keptRuleOk, hget, hgetD]
        rw [hD]
        simp only [asArr]
        exact hlen
      · rw [if_neg hlen] at h
        exact absurd h (by simp)
  | some ds =>
    cases hI : asArr (getField r "ip") with
    | none =>
      simp only [processRule, hD, hI] at h
      by_cases hlen : (filterNew seen ds).1.length > 0
      · rw [if_pos hlen] at h
        injection h with h1
        subst h1
        have hget : getField (setField r "domain" (Json.arr (filterNew seen ds).1)) "domain"
            = some (Json.arr (filterNew seen ds).1) :=
          getField_setField_gen_self r "domain" _ _ (asArr_eq_some hD)
        have hgetI : getField (setField r "domain" (Json.arr (filterNew seen ds).1)) "ip"
            = getField r "ip" :=
          getField_setField_gen_ne r "domain" "ip" _ _ (asArr_eq_some hD) (by decide)
        simp only [keptRuleOk, hget, hgetI]
        rw [hI]
        simp only [asArr]
        exact hlen
      · rw [if_neg hlen] at h
        exact absurd h (by simp)
    | some is_ =>
      simp only [processRule, hD, hI] at h
      by_cases hlen : (filterNew seen ds).1.length > 0 ∨
          (filterNew (filterNew seen ds).2 is_).1.length > 0
      · rw [if_pos hlen] at h
        injection h with h1
        subst h1
        have hip : getField (setField r "domain" (Json.arr (filterNew seen ds).1)) "ip"
            = some (Json.arr is_) := by
          rw [getField_setField_gen_ne r "domain" "ip" _ _ (asArr_eq_some hD) (by decide),
            asArr_eq_some hI]
        have hget1 : getField (setField (setField r "domain"
            (Json.arr (filterNew seen ds).1)) "ip"
            (Json.arr (filterNew (filterNew seen ds).2 is_).1)) "ip"
            = some (Json.arr (filterNew (filterNew seen ds).2 is_).1) :=
          getField_setField_gen_self _ "ip" _ _ hip
        have hget2 : getField (setField (setField r "domain"
            (Json.arr (filterNew seen ds).1)) "ip"
            (Json.arr (filterNew (filterNew seen ds).2 is_).1)) "domain"
            = some (Json.arr (filterNew seen ds).1) := by
          rw [getField_setField_gen_ne _ "ip" "domain" _ _ hip (by decide),
            getField_setField_gen_self r "domain" _ _ (asArr_eq_some hD)]
        simp only [keptRuleOk, hget1, hget2]
        simp only [asArr]
        exact hlen
      · rw [if_neg hlen] at h
        exact absurd h (by simp)

theorem processRule_id (seen : List Json) (r : Json)
    (hfresh : ∀ e ∈ ruleMatchEntries r, seenHas seen e = false)
    (hpw : List.Pairwise JDistinct (ruleMatchEntries r))
    (hok : keptRuleOk r) : (processRule seen r).1 = some r := by
  cases hD : asArr (getField r "domain") with
  | none =>
    cases hI : asArr (getField r "ip") with
    | none =>
      simp only [processRule, hD, hI]
    | some is_ =>
      have hent : ruleMatchEntries r = is_ := by
        unfold ruleMatchEntries
        rw [hD, hI]
        simp
      rw [hent] at hfresh hpw
      have hid : (filterNew seen is_).1 = is_ := filterNew_id is_ seen hfresh hpw
      simp only [keptRuleOk, hD, hI] at hok
      simp only [processRule, hD, hI]
      show (if (filterNew seen is_).1.length > 0 then
        some (setField r "ip" (Json.arr (filterNew seen is_).1)) else none) = some r
      rw [hid, if_pos hok, setField_eq_self r "ip" (Json.arr is_) (asArr_eq_some hI)]
  | some ds =>
    cases hI : asArr (getField r "ip") with
    | none =>
      have hent : ruleMatchEntries r = ds := by
        unfold ruleMatchEntries
        rw [hD, hI]
        simp
      rw [hent] at hfresh hpw
      have hid : (filterNew seen ds).1 = ds := filterNew_id ds seen hfresh hpw
      simp only [keptRuleOk, hD, hI] at hok
      simp only [processRule, hD, hI]
      show (if (filterNew seen ds).1.length > 0 then
        some (setField r "domain" (Json.arr (filterNew seen ds).1)) else none) = some r
      rw [hid, if_pos hok, setField_eq_self r "domain" (Json.arr ds) (asArr_eq_some hD)]
    | some is_ =>
      have hent : ruleMatchEntries r = ds ++ is_ := by
        unfold ruleMatchEntries
        rw [hD, hI]
        simp
      rw [hent] at hfresh hpw
      rw [List.pairwise_append] at hpw
      have hd1 : (filterNew seen ds).1 = ds :=
        filterNew_id ds seen (fun v hv => hfresh v (List.mem_append_left _ hv)) hpw.1
      have hbound : ∀ x, x ∈ (filterNew seen ds).2 → x ∈ seen ∨ x ∈ ds := by
        intro x hx
        rcases (filterNew_mem_two ds seen x).mp hx with h | h
        · exact Or.inl h
        · right
          rw [← hd1]
          exact h
      have hfreshi : ∀ v ∈ is_, seenHas (filterNew seen ds).2 v = false := by
        intro v hv
        exact seenHas_false_of_parts hbound
          (hfresh v (List.mem_append_right _ hv))
          (fun a ha => hpw.2.2 a ha v hv)
      have hi1 : (filterNew (filterNew seen ds).2 is_).1 = is_ :=
        filterNew_id is_ (filterNew seen ds).2 hfreshi hpw.2.1
      simp only [keptRuleOk, hD, hI] at hok
      simp only [processRule, hD, hI]
      show (if (filterNew seen ds).1.length > 0 ∨
          (filterNew (filterNew seen ds).2 is_).1.length > 0 then
        some (setField (setField r "domain" (Json.arr (filterNew seen ds).1)) "ip"
          (Json.arr (filterNew (filterNew seen ds).2 is_).1)) else none) = some r
      rw [hd1, hi1, if_pos hok,
        setField_eq_self r "domain" (Json.arr ds) (asArr_eq_some hD),
        setField_eq_self r "ip" (Json.arr is_) (asArr_eq_some hI)]

theorem matchEntries_nil : matchEntries [] = [] := by
  simp [matchEntries]

theorem matchEntries_cons (r : Json) (rs : List Json) :
    matchEntries (r :: rs) = ruleMatchEntries r ++ matchEntries rs := by
  simp [matchEntries]

theorem dedupList_fresh_pairwise (xs : List Json) : ∀ (seen : List Json),
    (∀ e ∈ matchEntries (dedupList seen xs), seenHas seen e = false) ∧
    List.Pairwise JDistinct (matchEntries (dedupList seen xs)) := by
  induction xs with
  | nil =>
    intro seen
    simp [dedupList, matchEntries]
  | cons r rs ih =>
    intro seen
    rcases hpr : processRule seen r with ⟨o, seen1⟩
    have hsub : ∀ x, x ∈ seen → x ∈ seen1 := by
      intro x hx
      have h2 := processRule_mem_two seen r x
      rw [hpr] at h2
      exact h2.mpr (Or.inl hx)
    have hfp := processRule_fresh_pairwise seen r
    rw [hpr] at hfp
    cases o with
    | none =>
      simp only [dedupList, hpr]
      obtain ⟨ih1, ih2⟩ := ih seen1
      exact ⟨fun e he => seenHas_mono hsub e (ih1 e he), ih2⟩
    | some r1 =>
      simp only [dedupList, hpr]
      rw [matchEntries_cons]
      obtain ⟨ih1, ih2⟩ := ih seen1
      simp only [outEntries] at hfp
      obtain ⟨hf1, hp1⟩ := hfp
      constructor
      · intro e he
        rcases List.mem_append.mp he with h1 | h1
        · exact hf1 e h1
        · exact seenHas_mono hsub e (ih1 e h1)
      · rw [List.pairwise_append]
        refine ⟨hp1, ih2, ?_⟩
        intro a ha b hb
        have hamem : a ∈ seen1 := by
          have h2 := processRule_mem_two seen r a
          rw [hpr] at h2
          exact h2.mpr (Or.inr (by simpa [outEntries] using ha))
        exact JDistinct_of_fresh (ih1 b hb) a hamem

theorem dedupList_keptOk (xs : List Json) : ∀ (seen : List Json) (r1 : Json),
    r1 ∈ dedupList seen xs → keptRuleOk r1 := by
  induction xs with
  | nil =>
    intro seen r1 h
    simp [dedupList] at h
  | cons r rs ih =>
    intro seen r1 h
    rcases hpr : processRule seen r with ⟨o, seen1⟩
    cases o with
    | none =>
      simp only [dedupList, hpr] at h
      exact ih seen1 r1 h
    | some r2 =>
      simp only [dedupList, hpr] at h
      rcases List.mem_cons.mp h with rfl | h1
      · exact processRule_kept seen r r1 (by rw [hpr])
      · exact ih seen1 r1 h1

theorem dedupList_id (out : List Json) : ∀ (seen2 : List Json),
    (∀ e ∈ matchEntries out, seenHas seen2 e = false) →
    List.Pairwise JDistinct (matchEntries out) →
    (∀ r ∈ out, keptRuleOk r) →
    dedupList seen2 out = out := by
  induction out with
  | nil =>
    intro seen2 _ _ _
    simp [dedupList]
  | cons r rest ih =>
    intro seen2 hfresh hpw hok
    rw [matchEntries_cons] at hfresh hpw
    rw [List.pairwise_append] at hpw
    have hfr : ∀ e ∈ ruleMatchEntries r, seenHas seen2 e = false :=
      fun e he => hfresh e (List.mem_append_left _ he)
    have h1 : (processRule seen2 r).1 = some r :=
      processRule_id seen2 r hfr hpw.1 (hok r (List.mem_cons_self r rest))
    rcases hpr : processRule seen2 r with ⟨o, seen1⟩
    rw [hpr] at h1
    simp only at h1
    subst h1
    simp only [dedupList, hpr]
    congr 1
    have hbound : ∀ x, x ∈ seen1 → x ∈ seen2 ∨ x ∈ ruleMatchEntries r := by
      intro x hx
      have h2 := processRule_mem_two seen2 r x
      rw [hpr] at h2
      rcases h2.mp hx with h | h
      · exact Or.inl h
      · right
        simpa [outEntries] using h
    apply ih seen1
    · intro e he
      exact seenHas_false_of_parts hbound
        (hfresh e (List.mem_append_right _ he))
        (fun a ha => hpw.2.2 a ha e he)
    · exact hpw.2.1
    · exact fun r2 hr2 => hok r2 (List.mem_cons_of_mem r hr2)

theorem dedupList_dedupList (xs : List Json) :
    dedupList [] (dedupList [] xs) = dedupList [] xs := by
  apply dedupList_id
  · intro e _
    exact seenHas_nil e
  · exact (dedupList_fresh_pairwise xs []).2
  · exact fun r hr => dedupList_keptOk xs [] r hr

/-! ## Document-level behaviour of `removeDuplicateRules` -/

theorem removeDuplicateRules_no_routing (json : Json)
    (h : getField json "routing" = none) :
    removeDuplicateRules json = Except.ok json := by
  simp only [removeDuplicateRules, h]

theorem removeDuplicateRules_no_rules (json routing : Json)
    (h1 : getField json "routing" = some routing)
    (h2 : getField routing "rules" = none) :
    removeDuplicateRules json = Except.ok json := by
  simp only [removeDuplicateRules, h1, h2]

theorem removeDuplicateRules_falsy (json routing rules : Json)
    (h1 : getField json "routing" = some routing)
    (h2 : getField routing "rules" = some rules)
    (h3 : truthy rules = false) :
    removeDuplicateRules json = Except.ok json := by
  simp only [removeDuplicateRules, h1, h2]
  rw [if_pos h3]

theorem removeDuplicateRules_arr (json routing : Json) (xs : List Json)
    (h1 : getField json "routing" = some routing)
    (h2 : getField routing "rules" = some (Json.arr xs)) :
    removeDuplicateRules json = Except.ok (setField json "routing"
      (setField routing "rules" (Json.arr (dedupList [] xs)))) := by
  simp only [removeDuplicateRules, h1, h2]
  rw [if_neg (by simp [truthy])]

theorem removeDuplicateRules_str (json routing : Json) (s : String)
    (h1 : getField json "routing" = some routing)
    (h2 : getField routing "rules" = some (Json.str s))
    (h3 : ¬ truthy (Json.str s) = false) :
    removeDuplicateRules json = Except.ok (setField json "routing"
      (setField routing "rules" (Json.arr (dedupList [] (strChars s))))) := by
  simp only [removeDuplicateRules, h1, h2]
  rw [if_neg h3]

theorem removeDuplicateRules_error (json routing rules : Json)
    (h1 : getField json "routing" = some routing)
    (h2 : getField routing "rules" = some rules)
    (h3 : ¬ truthy rules = false)
    (harr : ∀ xs, rules ≠ Json.arr xs)
    (hstr : ∀ s, rules ≠ Json.str s) :
    removeDuplicateRules json = Except.error () := by
  cases rules with
  | null => exact absurd rfl h3
  | str s => exact absurd rfl (hstr s)
  | arr xs => exact absurd rfl (harr xs)
  | bool b =>
    simp only [removeDuplicateRules, h1, h2]
    rw [if_neg h3]
  | num n =>
    simp only [removeDuplicateRules, h1, h2]
    rw [if_neg h3]
  | obj fs =>
    simp only [removeDuplicateRules, h1, h2]
    rw [if_neg h3]

theorem dedupList_passthrough (cs : List Json) : ∀ (seen : List Json),
    (∀ c ∈ cs, getField c "domain" = none ∧ getField c "ip" = none) →
    dedupList seen cs = cs := by
  induction cs with
  | nil =>
    intro seen _
    simp [dedupList]
  | cons c cs ih =>
    intro seen hcs
    obtain ⟨hd, hi⟩ := hcs c (List.mem_cons_self c cs)
    have hpr : processRule seen c = (some c, seen) := by
      simp [processRule, hd, hi, asArr]
    simp only [dedupList, hpr]
    rw [ih seen (fun c2 hc2 => hcs c2 (List.mem_cons_of_mem _ hc2))]

theorem strChars_no_fields (s : String) :
    ∀ c ∈ strChars s, getField c "domain" = none ∧ getField c "ip" = none := by
  intro c hc
  rcases List.mem_map.mp hc with ⟨ch, _, rfl⟩
  exact ⟨rfl, rfl⟩

theorem removeDuplicateRules_bind_idem (json : Json) :
    (removeDuplicateRules json).bind removeDuplicateRules
      = removeDuplicateRules json := by
  cases hrt : getField json "routing" with
  | none =>
    rw [removeDuplicateRules_no_routing json hrt]
    show removeDuplicateRules json = Except.ok json
    rw [removeDuplicateRules_no_routing json hrt]
  | some routing =>
    cases hrl : getField routing "rules" with
    | none =>
      rw [removeDuplicateRules_no_rules json routing hrt hrl]
      show removeDuplicateRules json = Except.ok json
      rw [removeDuplicateRules_no_rules json routing hrt hrl]
    | some rules =>
      by_cases htr : truthy rules = false
      · rw [removeDuplicateRules_falsy json routing rules hrt hrl htr]
        show removeDuplicateRules json = Except.ok json
        rw [removeDuplicateRules_falsy json routing rules hrt hrl htr]
      · obtain ⟨f, rfl⟩ := getField_some_obj hrt
        cases rules with
        | null => exact absurd rfl htr
        | bool b =>
          rw [removeDuplicateRules_error _ routing (Json.bool b) hrt hrl htr
            (by intro xs h; exact Json.noConfusion h)
            (by intro s h; exact Json.noConfusion h)]
          rfl
        | num n =>
          rw [removeDuplicateRules_error _ routing (Json.num n) hrt hrl htr
            (by intro xs h; exact Json.noConfusion h)
            (by intro s h; exact Json.noConfusion h)]
          rfl
        | obj fs =>
          rw [removeDuplicateRules_error _ routing (Json.obj fs) hrt hrl htr
            (by intro xs h; exact Json.noConfusion h)
            (by intro s h; exact Json.noConfusion h)]
          rfl
        | arr xs =>
          rw [removeDuplicateRules_arr _ routing xs hrt hrl]
          show removeDuplicateRules (setField (Json.obj f) "routing"
            (setField routing "rules" (Json.arr (dedupList [] xs))))
            = Except.ok (setField (Json.obj f) "routing"
              (setField routing "rules" (Json.arr (dedupList [] xs))))
          have hrt2 := getField_setField_self f "routing"
            (setField routing "rules" (Json.arr (dedupList [] xs)))
          have hrl2 : getField (setField routing "rules" (Json.arr (dedupList [] xs)))
              "rules" = some (Json.arr (dedupList [] xs)) :=
            getField_setField_gen_self routing "rules" _ _ hrl
          rw [removeDuplicateRules_arr _ _ _ hrt2 hrl2, dedupList_dedupList,
            setField_eq_self _ "rules" _ hrl2, setField_eq_self _ "routing" _ hrt2]
        | str s =>
          rw [removeDuplicateRules_str _ routing s hrt hrl htr]
          rw [dedupList_passthrough (strChars s) [] (strChars_no_fields s)]
          show removeDuplicateRules (setField (Json.obj f) "routing"
            (setField routing "rules" (Json.arr (strChars s))))
            = Except.ok (setField (Json.obj f) "routing"
              (setField routing "rules" (Json.arr (strChars s))))
          have hrt2 := getField_setField_self f "routing"
            (setField routing "rules" (Json.arr (strChars s)))
          have hrl2 : getField (setField routing "rules" (Json.arr (strChars s)))
              "rules" = some (Json.arr (strChars s)) :=
            getField_setField_gen_self routing "rules" _ _ hrl
          rw [removeDuplicateRules_arr _ _ _ hrt2 hrl2,
            dedupList_passthrough (strChars s) [] (strChars_no_fields s),
            setField_eq_self _ "rules" _ hrl2, setField_eq_self _ "routing" _ hrt2]

/-! ## Agreement of the claim-side reference deduplication with the code -/

theorem contains_iff_mem_json (seen : List Json) (v : Json) :
    seen.contains v = true ↔ v ∈ seen := by
  induction seen with
  | nil => simp
  | cons x seen ih =>
    rw [List.contains_cons, Bool.or_eq_true, ih, List.mem_cons]
    constructor
    · rintro (h | h)
      · exact Or.inl (eq_of_beq h)
      · exact Or.inr h
    · rintro (h | h)
      · exact Or.inl (beq_of_eq h)
      · exact Or.inr h

theorem isStrJson_prim {v : Json} (h : isStrJson v = true) : isPrim v = true := by
  cases v <;> first
  | rfl
  | simp [isStrJson] at h

theorem seenHas_eq_contains {v : Json} (seen : List Json) (hv : isPrim v = true) :
    seenHas seen v = seen.contains v := by
  cases hs : seenHas seen v with
  | true =>
    obtain ⟨_, hm⟩ := (seenHas_eq_true_iff seen v).mp hs
    exact ((contains_iff_mem_json seen v).mpr hm).symm
  | false =>
    cases hc : seen.contains v with
    | false => rfl
    | true =>
      exfalso
      have hm := (contains_iff_mem_json seen v).mp hc
      rw [seenHas_eq_false_iff] at hs
      exact hs ⟨hv, hm⟩

theorem specValueFilter_eq_filterNew (vs : List Json) : ∀ (seen : List Json),
    vs.all isStrJson = true → specValueFilter seen vs = filterNew seen vs := by
  induction vs with
  | nil =>
    intro seen _
    rfl
  | cons v vs ih =>
    intro seen hall
    rw [List.all_cons, Bool.and_eq_true] at hall
    have hprim := isStrJson_prim hall.1
    have hc := (seenHas_eq_contains seen hprim).symm
    by_cases hs : seenHas seen v = true
    · have hcv : seen.contains v = true := by rw [hc, hs]
      simp only [specValueFilter, filterNew]
      rw [if_pos hcv, if_pos hs]
      exact ih seen hall.2
    · have hcv : ¬(seen.contains v = true) := by
        rw [hc]
        exact hs
      simp only [specValueFilter, filterNew]
      rw [if_neg hcv, if_neg hs, ih (v :: seen) hall.2]

theorem specProcessRule_eq (seen : List Json) (r : Json)
    (hwf : wellFormedRule r = true) : specProcessRule seen r = processRule seen r := by
  cases hD : asArr (getField r "domain") with
  | none =>
    cases hI : asArr (getField r "ip") with
    | none => simp only [specProcessRule, processRule, hD, hI]
    | some is_ =>
      have hall : is_.all isStrJson = true := by
        simp only [wellFormedRule, hD, hI, Bool.and_eq_true] at hwf
        exact hwf.2
      simp only [specProcessRule, processRule, hD, hI,
        specValueFilter_eq_filterNew is_ seen hall]
  | some ds =>
    have hallD : ds.all isStrJson = true := by
      simp only [wellFormedRule, hD, Bool.and_eq_true] at hwf
      exact hwf.1
    cases hI : asArr (getField r "ip") with
    | none =>
      simp only [specProcessRule, processRule, hD, hI,
        specValueFilter_eq_filterNew ds seen hallD]
    | some is_ =>
      have hallI : is_.all isStrJson = true := by
        simp only [wellFormedRule, hD, hI, Bool.and_eq_true] at hwf
        exact hwf.2
      simp only [specProcessRule, processRule, hD, hI,
        specValueFilter_eq_filterNew ds seen hallD,
        specValueFilter_eq_filterNew is_ (filterNew seen ds).2 hallI]

theorem specDedupRules_eq (xs : List Json) : ∀ (seen : List Json),
    wellFormedRules xs = true → specDedupRules seen xs = dedupList seen xs := by
  induction xs with
  | nil =>
    intro seen _
    rfl
  | cons r rs ih =>
    intro seen hwf
    rw [wellFormedRules, List.all_cons, Bool.and_eq_true] at hwf
    rw [specDedupRules, dedupList, specProcessRule_eq seen r hwf.1]
    cases processRule seen r with
    | mk o seen1 =>
      cases o with
      | none =>
        show specDedupRules seen1 rs = dedupList seen1 rs
        exact ih seen1 hwf.2
      | some r1 =>
        show r1 :: specDedupRules seen1 rs = r1 :: dedupList seen1 rs
        rw [ih seen1 hwf.2]

/-! ## Rule assembly: agreement with the specification's ordering -/

theorem contains_iff_mem_str (l : List String) (v : String) :
    l.contains v = true ↔ v ∈ l := by
  induction l with
  | nil => simp
  | cons x l ih =>
    rw [List.contains_cons, Bool.or_eq_true, ih, List.mem_cons]
    constructor
    · rintro (h | h)
      · exact Or.inl (eq_of_beq h)
      · exact Or.inr h
    · rintro (h | h)
      · exact Or.inl (beq_of_eq h)
      · exact Or.inr h

theorem parseExcludeList_no_empty (s : String) : ¬("" ∈ parseExcludeList s) := by
  intro h
  unfold parseExcludeList at h
  rw [List.mem_filter] at h
  have h2 := h.2
  simp at h2

theorem tagRulesOf_eq_spec (st : ServerState) (iso tag : String) :
    tagRulesOf st iso tag = specTagContribution st iso tag := by
  unfold tagRulesOf specTagContribution
  cases alookup st.tagsPresets tag with
  | none => rfl
  | some preset =>
    show preset.base ++ (alookup preset.country iso).getD preset.default =
      preset.base ++ (match alookup preset.country iso with
        | some cr => cr
        | none => preset.default)
    cases alookup preset.country iso with
    | none => rfl
    | some cr => rfl

theorem tagsRulesOf_eq_spec (st : ServerState) (iso : String) (tags : List String) :
    tagsRulesOf st iso tags = (tags.map (specTagContribution st iso)).flatten := by
  unfold tagsRulesOf
  have h : tagRulesOf st iso = specTagContribution st iso :=
    funext (tagRulesOf_eq_spec st iso)
  rw [h]

theorem countryRulesOf_eq_spec (st : ServerState) (iso : String) :
    countryRulesOf st iso = (match alookup st.rulePresets iso with
      | some rs => rs
      | none => (alookup st.rulePresets "DEFAULT").getD []) := by
  unfold countryRulesOf
  cases alookup st.rulePresets iso <;> rfl

theorem sameCountryRulesOf_eq_spec (env : EngineEnv) (iso : String) :
    sameCountryRulesOf env iso =
      (if env.directSameCountry && iso != "" then
        (match buildDomainRule env.toASCII ((env.countryTlds iso).getD []) with
         | some r => [r]
         | none => []) ++ [geoipRule iso]
      else []) := by
  unfold sameCountryRulesOf
  rw [Bool.and_comm]

theorem assembleRules_eq_specC3 (env : EngineEnv) (st : ServerState) (iso : String)
    (tags : List String) :
    assembleRules env st iso tags = specAssembleC3 env st iso tags := by
  unfold assembleRules specAssembleC3
  rw [tagsRulesOf_eq_spec, countryRulesOf_eq_spec, sameCountryRulesOf_eq_spec]
  rfl

theorem reverseRulesOf_all (st : ServerState)
    (hrev : ∀ p ∈ st.reversePresets, ¬("" ∈ p.exclude)) :
    reverseRulesOf st "" = (st.reversePresets.map (fun p => p.rules)).flatten := by
  unfold reverseRulesOf
  congr 1
  congr 1
  rw [List.filter_eq_self]
  intro p hp
  have h1 : p.exclude.contains "" = false := by
    cases hc : p.exclude.contains "" with
    | false => rfl
    | true => exact absurd ((contains_iff_mem_str _ _).mp hc) (hrev p hp)
  rw [h1]
  rfl

/-! ## Merge and response lemmas -/

theorem mergeDocument_remarks (env : EngineEnv) (st : ServerState) (original : Json)
    (iso : String) (rules : List Json) :
    getField (mergeDocument env st original iso rules)
      "remarks" = some (Json.str (mergedRemarks env original iso)) := by
  simp only [mergeDocument, getField, objAssign]
  rw [alookup_setFieldList_ne _ _ _ _ (by decide), alookup_setFieldList_self]

theorem mergedRemarks_present (env : EngineEnv) (original : Json) (iso s n : String)
    (hr : getField original "remarks" = some (Json.str s)) (hiso : iso ≠ "")
    (hn : env.countryName iso = some n) :
    mergedRemarks env original iso = s ++ (" (" ++ n ++ ")") := by
  unfold mergedRemarks
  rw [hr, hn]
  simp only [jsTemplate, jsCoerceString, Option.getD]
  rw [if_pos (bne_iff_ne.mpr hiso)]

theorem mergedRemarks_absent (env : EngineEnv) (original : Json) (iso n : String)
    (hr : getField original "remarks" = none) (hiso : iso ≠ "")
    (hn : env.countryName iso = some n) :
    mergedRemarks env original iso = "undefined" ++ (" (" ++ n ++ ")") := by
  unfold mergedRemarks
  rw [hr, hn]
  simp only [jsTemplate, Option.getD]
  rw [if_pos (bne_iff_ne.mpr hiso)]

theorem responseDoc_none (iso : String) (merged : Json) :
    responseDoc none iso merged = Except.ok merged := rfl

theorem responseDoc_some_dedup (t : Json → String → Except Unit Json) (iso : String)
    (merged doc : Json) (h : responseDoc (some t) iso merged = Except.ok doc) :
    ∃ d, removeDuplicateRules d = Except.ok doc ∧
      (t merged iso = Except.ok d ∨ d = merged) := by
  unfold responseDoc at h
  have h2 : (match (t merged iso).bind removeDuplicateRules with
    | Except.ok doc => Except.ok doc
    | Except.error _ => removeDuplicateRules merged) = Except.ok doc := h
  clear h
  cases ht : t merged iso with
  | error e =>
    rw [ht] at h2
    simp only [Except.bind] at h2
    exact ⟨merged, h2, Or.inr rfl⟩
  | ok d =>
    rw [ht] at h2
    simp only [Except.bind] at h2
    cases hr : removeDuplicateRules d with
    | ok doc2 =>
      rw [hr] at h2
      simp only at h2
      injection h2 with h1
      exact ⟨d, by rw [hr, h1], Or.inl rfl⟩
    | error e =>
      rw [hr] at h2
      simp only at h2
      exact ⟨merged, h2, Or.inr rfl⟩

theorem sameCountryRulesOf_unresolved (env : EngineEnv) :
    sameCountryRulesOf env "" = [] := by
  unfold sameCountryRulesOf
  rw [if_neg (by simp)]

theorem euRulesOf_unresolved (st : ServerState) : euRulesOf st "" = [] := by
  unfold euRulesOf
  rw [if_neg (by decide)]

theorem countryRulesOf_unresolved (st : ServerState)
    (hdef : alookup st.rulePresets "" = none) :
    countryRulesOf st "" = (alookup st.rulePresets "DEFAULT").getD [] := by
  unfold countryRulesOf
  rw [hdef]
  rfl

/-! ## Include-expansion lemmas -/

theorem expandPieces_noInc (incDir : String) (fs : IncludeFS) (seen : List String)
    (content : List Piece) (h : noIncludes content = true) :
    expandPieces incDir fs seen content = renderPieces content := by
  induction content with
  | nil => simp [expandPieces, renderPieces]
  | cons p rest ih =>
    cases p with
    | lit s =>
      rw [noIncludes] at h
      simp only [expandPieces, renderPieces]
      rw [ih h]
    | inc name =>
      rw [noIncludes] at h
      exact Bool.noConfusion h

theorem expandPieces_cycle (incDir : String) (fs : IncludeFS) (seen : List String)
    (name : String) (rest : List Piece)
    (hseen : seen.contains (includeFullPath incDir name) = true) :
    expandPieces incDir fs seen (Piece.inc name :: rest)
      = "\x7b\x7d" ++ expandPieces incDir fs seen rest := by
  simp only [expandPieces]
  rw [dif_pos hseen]

theorem expandPieces_missing (incDir : String) (fs : IncludeFS) (seen : List String)
    (name : String) (rest : List Piece)
    (hseen : ¬(seen.contains (includeFullPath incDir name) = true))
    (hmiss : lookupFile fs (includeFullPath incDir name) = none) :
    expandPieces incDir fs seen (Piece.inc name :: rest)
      = "\x7b\x7d" ++ expandPieces incDir fs seen rest := by
  simp only [expandPieces]
  rw [dif_neg hseen]
  split
  · rfl
  · next content h2 =>
    rw [hmiss] at h2
    exact Option.noConfusion h2

theorem expandPieces_found_noInc (incDir : String) (fs : IncludeFS) (seen : List String)
    (name : String) (rest content : List Piece)
    (hseen : ¬(seen.contains (includeFullPath incDir name) = true))
    (hfound : lookupFile fs (includeFullPath incDir name) = some content)
    (hnoinc : noIncludes content = true) :
    expandPieces incDir fs seen (Piece.inc name :: rest)
      = (renderPieces content).trim ++ expandPieces incDir fs seen rest := by
  simp only [expandPieces]
  rw [dif_neg hseen]
  split
  · next h2 =>
    rw [hfound] at h2
    exact Option.noConfusion h2
  · next content2 h2 =>
    rw [hfound] at h2
    injection h2 with h3
    subst h3
    rw [expandPieces_noInc _ _ _ _ hnoinc]

/-! ## Claim theorems -/

/-- Claim C1, counterexample: a request with no transform hook configured
serializes the merged document untouched — its rule list still holds the
duplicated `BASE` rule — while the Deduplicator applied to the assembled rule
list would collapse it to one rule; the two rule lists differ.  So
deduplication is not the final pass before serialization for every request. -/
theorem claim_C1_counterexample :
    handleRequest envC stC1 none originalC1 "" [] = Except.ok mergedC1 ∧
    (getField mergedC1 "routing").bind (fun r => getField r "rules")
      = some (Json.arr [ruleA, ruleA]) ∧
    dedupList [] (assembleRules envC stC1 "" []) = [ruleA] ∧
    Json.arr [ruleA, ruleA] ≠ Json.arr [ruleA] := by
  refine ⟨rfl, rfl, rfl, ?_⟩
  intro h
  injection h with h1
  exact absurd (congrArg List.length h1) (by decide)

/-- Claim C1, amended: with no transform hook the merged document is sent
unchanged (no deduplication pass); when a transform hook is configured, every
successfully sent document is the Deduplicator's output — of the transformed
document when the hook (and that deduplication) succeed, of the pre-hook merged
document otherwise. -/
theorem claim_C1_amended :
    (∀ (iso : String) (merged : Json),
      responseDoc none iso merged = Except.ok merged) ∧
    (∀ (t : Json → String → Except Unit Json) (iso : String) (merged doc : Json),
      responseDoc (some t) iso merged = Except.ok doc →
      ∃ d, removeDuplicateRules d = Except.ok doc ∧
        (t merged iso = Except.ok d ∨ d = merged)) :=
  ⟨responseDoc_none, responseDoc_some_dedup⟩

/-- Witness for the amended claim C1 at a concrete transform and document. -/
theorem claim_C1_amended_witness :
    responseDoc none "" originalC1 = Except.ok originalC1 ∧
    (∃ d, removeDuplicateRules d = Except.ok (Json.obj []) ∧
      ((fun (j : Json) (_ : String) => Except.ok (ε := Unit) j) (Json.obj []) ""
          = Except.ok d ∨ d = Json.obj [])) :=
  ⟨claim_C1_amended.1 "" originalC1,
   claim_C1_amended.2 (fun j _ => Except.ok j) "" (Json.obj []) (Json.obj []) rfl⟩

/-- Claim C2, counterexample: with an unresolvable (empty) country the reverse
preset excluding `US` still contributes its rule, because exclude sets are
built from non-empty upper-cased codes and never contain the empty string; the
assembled list is the reverse rule followed by the `DEFAULT` rule. -/
theorem claim_C2_counterexample :
    assembleRules envC stC2 "" [] = [ruleB, ruleD] ∧
    ruleB ∈ assembleRules envC stC2 "" [] ∧
    ruleB ∈ (stC2.reversePresets.map (fun p => p.rules)).flatten := by
  refine ⟨rfl, ?_, ?_⟩
  · show ruleB ∈ [ruleB, ruleD]
    exact List.mem_cons_self ruleB [ruleD]
  · show ruleB ∈ [ruleB]
    exact List.mem_singleton.mpr rfl

/-- Claim C2, amended: parsed exclude lists never contain the empty code, and
for an unresolvable (empty) country the assembled list is the self-direct
rule, `BASE`, the tag rules, then the full rule sequence of *every* reverse
preset in load order, and finally the `DEFAULT` preset — no EU and no
same-country contribution (given the preset index has no empty-string key). -/
theorem claim_C2_amended :
    (∀ s, ¬("" ∈ parseExcludeList s)) ∧
    (∀ (env : EngineEnv) (st : ServerState) (tags : List String),
      alookup st.rulePresets "" = none →
      (∀ p ∈ st.reversePresets, ¬("" ∈ p.exclude)) →
      assembleRules env st "" tags =
        directRulesOf env.publicURL ++ baseRulesOf st ++ tagsRulesOf st "" tags ++
          (st.reversePresets.map (fun p => p.rules)).flatten ++
          (alookup st.rulePresets "DEFAULT").getD []) := by
  constructor
  · exact parseExcludeList_no_empty
  · intro env st tags hdef hrev
    unfold assembleRules
    rw [sameCountryRulesOf_unresolved, euRulesOf_unresolved,
      countryRulesOf_unresolved st hdef, reverseRulesOf_all st hrev]
    simp

/-- Witness for the amended claim C2 at the concrete reverse-preset state. -/
theorem claim_C2_amended_witness :
    (¬("" ∈ parseExcludeList "US")) ∧
    assembleRules envC stC2 "" [] =
      directRulesOf envC.publicURL ++ baseRulesOf stC2 ++ tagsRulesOf stC2 "" [] ++
        (stC2.reversePresets.map (fun p => p.rules)).flatten ++
        (alookup stC2.rulePresets "DEFAULT").getD [] :=
  ⟨claim_C2_amended.1 "US",
   claim_C2_amended.2 envC stC2 [] rfl (by decide)⟩

/-- Claim C3: for every request the assembled rule list is exactly the
specification's concatenation — self-direct rule, `BASE`, per-tag rules in
activation order, same-country direct rules, reverse presets whose exclude set
does not contain the resolved code in load order, `EU` only for the `EU` code,
and the country preset or `DEFAULT` fallback. -/
theorem claim_C3_assembly_order (env : EngineEnv) (st : ServerState) (iso : String)
    (tags : List String) :
    assembleRules env st iso tags = specAssembleC3 env st iso tags :=
  assembleRules_eq_specC3 env st iso tags

/-- Claim C4: on a document whose `routing.rules` holds a rule list (match
entries are strings, per the data model), `removeDuplicateRules` replaces the
rule list with exactly the claim's reference computation — one shared seen-set
walked over the rules in order, already-seen values removed, survivors
inserted, rules that had match lists dropped iff both end up empty, others
passed through, order preserved. -/
theorem claim_C4_dedup_reference (json routing : Json) (xs : List Json)
    (h1 : getField json "routing" = some routing)
    (h2 : getField routing "rules" = some (Json.arr xs))
    (hwf : wellFormedRules xs = true) :
    removeDuplicateRules json = Except.ok (setField json "routing"
      (setField routing "rules" (Json.arr (specDedupRules [] xs)))) := by
  rw [removeDuplicateRules_arr json routing xs h1 h2, specDedupRules_eq xs [] hwf]

/-- Witness for claim C4 on a concrete duplicated rule list. -/
theorem claim_C4_witness :
    removeDuplicateRules docC4 = Except.ok (setField docC4 "routing"
      (setField routingC4 "rules" (Json.arr (specDedupRules [] [ruleA, ruleA])))) :=
  claim_C4_dedup_reference docC4 routingC4 [ruleA, ruleA] rfl rfl rfl

/-- Claim C5: deduplication is idempotent — for every input document, applying
`removeDuplicateRules` twice (sequenced through its error monad, since a throw
aborts the request both times) equals applying it once. -/
theorem claim_C5_dedup_idempotent (fields : List (String × Json)) :
    (removeDuplicateRules (Json.obj fields)).bind removeDuplicateRules
      = removeDuplicateRules (Json.obj fields) :=
  removeDuplicateRules_bind_idem (Json.obj fields)

/-- Claim C6, counterexample: on a document whose two rules each carry the
match value `{}`, the deduplicator keeps both occurrences — the JavaScript
`Set` compares the deep-copied object entries by reference, never by value —
so the surviving `ip`/`domain` match namespace holds the same value twice and
the claim's "no match value occurs more than once" fails on this document. -/
theorem claim_C6_counterexample :
    removeDuplicateRules docC6 = Except.ok docC6 ∧
    matchEntries [ruleObjEntry1, ruleObjEntry2] = [Json.obj [], Json.obj []] ∧
    ¬ List.Pairwise (fun a b => a ≠ b)
      (matchEntries [ruleObjEntry1, ruleObjEntry2]) := by
  refine ⟨rfl, rfl, ?_⟩
  intro h
  rw [show matchEntries [ruleObjEntry1, ruleObjEntry2]
      = [Json.obj [], Json.obj []] from rfl] at h
  exact (List.pairwise_cons.mp h).1 (Json.obj []) (List.mem_singleton.mpr rfl) rfl

/-- Claim C6, amended: in the deduplicator's output the surviving match
entries — domain and ip lists concatenated across all rules, one shared
namespace — are pairwise distinct under the set equality the code uses
(structural on primitive values, never equal on deep-copied object/array
entries, which are therefore never deduplicated). -/
theorem claim_C6_amended (json routing : Json) (xs : List Json)
    (h1 : getField json "routing" = some routing)
    (h2 : getField routing "rules" = some (Json.arr xs)) :
    removeDuplicateRules json = Except.ok (setField json "routing"
      (setField routing "rules" (Json.arr (dedupList [] xs)))) ∧
    List.Pairwise JDistinct (matchEntries (dedupList [] xs)) :=
  ⟨removeDuplicateRules_arr json routing xs h1 h2,
   (dedupList_fresh_pairwise xs []).2⟩

/-- Witness for the amended claim C6 on the object-entry document. -/
theorem claim_C6_amended_witness :
    removeDuplicateRules docC6 = Except.ok (setField docC6 "routing"
      (setField (Json.obj [("rules", Json.arr [ruleObjEntry1, ruleObjEntry2])])
        "rules" (Json.arr (dedupList [] [ruleObjEntry1, ruleObjEntry2])))) ∧
    List.Pairwise JDistinct
      (matchEntries (dedupList [] [ruleObjEntry1, ruleObjEntry2])) :=
  claim_C6_amended docC6
    (Json.obj [("rules", Json.arr [ruleObjEntry1, ruleObjEntry2])])
    [ruleObjEntry1, ruleObjEntry2] rfl rfl

/-- Claim C7: the tag contribution is, per active tag in activation order, the
tag's base rules followed by its country entry when the resolved code has one
and its default rules otherwise; an unknown tag contributes nothing, and a tag
listed twice contributes twice (the contribution is a per-occurrence
concatenation). -/
theorem claim_C7_tag_contribution :
    (∀ (st : ServerState) (iso : String) (tags : List String),
      tagsRulesOf st iso tags = (tags.map (specTagContribution st iso)).flatten) ∧
    (∀ (st : ServerState) (iso tag : String) (rest : List String),
      tagsRulesOf st iso (tag :: rest)
        = tagRulesOf st iso tag ++ tagsRulesOf st iso rest) ∧
    (∀ (st : ServerState) (iso tag : String),
      alookup st.tagsPresets tag = none → tagRulesOf st iso tag = []) := by
  refine ⟨tagsRulesOf_eq_spec, ?_, ?_⟩
  · intro st iso tag rest
    simp [tagsRulesOf]
  · intro st iso tag h
    unfold tagRulesOf
    rw [h]

/-- Witness for claim C7 at a concrete state and unknown tag. -/
theorem claim_C7_witness :
    tagsRulesOf stC2 "DE" ["streaming"]
      = (["streaming"].map (specTagContribution stC2 "DE")).flatten ∧
    tagsRulesOf stC2 "DE" ("streaming" :: [])
      = tagRulesOf stC2 "DE" "streaming" ++ tagsRulesOf stC2 "DE" [] ∧
    tagRulesOf stC2 "DE" "streaming" = [] :=
  ⟨claim_C7_tag_contribution.1 stC2 "DE" ["streaming"],
   claim_C7_tag_contribution.2.1 stC2 "DE" "streaming" [],
   claim_C7_tag_contribution.2.2 stC2 "DE" "streaming" rfl⟩

/-- Claim C8: include expansion is a total function (accepted by the
termination checker: every descent into an include consumes one file not yet
on the expansion chain of the finite include directory), and: a token whose
full path is already on the current expansion chain expands to the literal
`{}`; a missing include file expands to `{}`; a found file containing no
include tokens expands, as an include target, to its own trimmed content. -/
theorem claim_C8_include_expansion :
    (∀ (incDir : String) (fs : IncludeFS) (seen : List String) (name : String)
        (rest : List Piece),
      seen.contains (includeFullPath incDir name) = true →
      expandPieces incDir fs seen (Piece.inc name :: rest)
        = "\x7b\x7d" ++ expandPieces incDir fs seen rest) ∧
    (∀ (incDir : String) (fs : IncludeFS) (seen : List String) (name : String)
        (rest : List Piece),
      ¬(List.contains seen (includeFullPath incDir name) = true) →
      lookupFile fs (includeFullPath incDir name) = none →
      expandPieces incDir fs seen (Piece.inc name :: rest)
        = "\x7b\x7d" ++ expandPieces incDir fs seen rest) ∧
    (∀ (incDir : String) (fs : IncludeFS) (seen : List String) (name : String)
        (rest content : List Piece),
      ¬(List.contains seen (includeFullPath incDir name) = true) →
      lookupFile fs (includeFullPath incDir name) = some content →
      noIncludes content = true →
      expandPieces incDir fs seen (Piece.inc name :: rest)
        = (renderPieces content).trim ++ expandPieces incDir fs seen rest) :=
  ⟨expandPieces_cycle, expandPieces_missing, expandPieces_found_noInc⟩

/-- Witness for claim C8 on a one-file include directory. -/
theorem claim_C8_witness :
    (expandPieces "inc" fsC8 ["inc/a.json"] [Piece.inc "a"]
      = "\x7b\x7d" ++ expandPieces "inc" fsC8 ["inc/a.json"] []) ∧
    (expandPieces "inc" fsC8 [] [Piece.inc "b"]
      = "\x7b\x7d" ++ expandPieces "inc" fsC8 [] []) ∧
    (expandPieces "inc" fsC8 [] [Piece.inc "a"]
      = (renderPieces [Piece.lit "1"]).trim ++ expandPieces "inc" fsC8 [] []) :=
  ⟨claim_C8_include_expansion.1 "inc" fsC8 ["inc/a.json"] "a" [] (by decide),
   claim_C8_include_expansion.2.1 "inc" fsC8 [] "b" [] (by decide) rfl,
   claim_C8_include_expansion.2.2 "inc" fsC8 [] "a" [] [Piece.lit "1"]
     (by decide) rfl rfl⟩

/-- Claim C9, counterexample: the upstream document has no remarks field, yet
with a resolved country the merged document's remarks is set to the text
`undefined` with the country name appended — the appending is not conditional
on a remarks field being present. -/
theorem claim_C9_counterexample :
    getField (Json.obj []) "remarks" = none ∧
    getField (mergeDocument envC stC2 (Json.obj []) "DE" []) "remarks"
      = some (Json.str "undefined (Germany)") :=
  ⟨rfl, rfl⟩

/-- Claim C9, amended: when the upstream remarks is a string and a country was
resolved, the merged remarks is that string with the resolved country's display
name appended in parentheses; the appending however happens for every request
with a resolved country — when the upstream document has no remarks field the
base text is the string `undefined`. -/
theorem claim_C9_amended :
    (∀ (env : EngineEnv) (st : ServerState) (original : Json) (iso : String)
        (rules : List Json) (s n : String),
      getField original "remarks" = some (Json.str s) → iso ≠ "" →
      env.countryName iso = some n →
      getField (mergeDocument env st original iso rules) "remarks"
        = some (Json.str (s ++ (" (" ++ n ++ ")")))) ∧
    (∀ (env : EngineEnv) (st : ServerState) (original : Json) (iso : String)
        (rules : List Json) (n : String),
      getField original "remarks" = none → iso ≠ "" →
      env.countryName iso = some n →
      getField (mergeDocument env st original iso rules) "remarks"
        = some (Json.str ("undefined" ++ (" (" ++ n ++ ")")))) := by
  constructor
  · intro env st original iso rules s n hr hiso hn
    rw [mergeDocument_remarks, mergedRemarks_present env original iso s n hr hiso hn]
  · intro env st original iso rules n hr hiso hn
    rw [mergeDocument_remarks, mergedRemarks_absent env original iso n hr hiso hn]

/-- Witness for the amended claim C9 at concrete documents. -/
theorem claim_C9_amended_witness :
    getField (mergeDocument envC stC2 originalC1 "DE" []) "remarks"
      = some (Json.str ("r" ++ (" (" ++ "Germany" ++ ")"))) ∧
    getField (mergeDocument envC stC2 (Json.obj []) "DE" []) "remarks"
      = some (Json.str ("undefined" ++ (" (" ++ "Germany" ++ ")"))) :=
  ⟨claim_C9_amended.1 envC stC2 originalC1 "DE" [] "r" "Germany" rfl
     (by decide) rfl,
   claim_C9_amended.2 envC stC2 (Json.obj []) "DE" [] "Germany" rfl
     (by decide) rfl⟩

/-- Claim C10: `removeDuplicateRules` changes at most `routing.rules` — for an
input object, every successful output preserves every top-level field other
than `routing` and every field of `routing` other than `rules`; and a document
with no `routing.rules` is returned exactly as given. -/
theorem claim_C10_frame (fields : List (String × Json)) :
    (∀ j2, removeDuplicateRules (Json.obj fields) = Except.ok j2 →
      (∀ k, k ≠ "routing" → getField j2 k = getField (Json.obj fields) k) ∧
      (∀ routing routing2,
        getField (Json.obj fields) "routing" = some routing →
        getField j2 "routing" = some routing2 →
        ∀ k, k ≠ "rules" → getField routing2 k = getField routing k)) ∧
    ((getField (Json.obj fields) "routing").bind (fun r => getField r "rules")
        = none →
      removeDuplicateRules (Json.obj fields) = Except.ok (Json.obj fields)) := by
  constructor
  · intro j2 hj2
    cases hrt : getField (Json.obj fields) "routing" with
    | none =>
      rw [removeDuplicateRules_no_routing _ hrt] at hj2
      injection hj2 with h1
      subst h1
      exact ⟨fun k _ => rfl, fun routing routing2 ha hb => Option.noConfusion ha⟩
    | some routing =>
      cases hrl : getField routing "rules" with
      | none =>
        rw [removeDuplicateRules_no_rules _ routing hrt hrl] at hj2
        injection hj2 with h1
        subst h1
        refine ⟨fun k _ => rfl, fun r r2 ha hb => ?_⟩
        rw [hrt] at hb
        injection ha with ha1
        injection hb with hb1
        subst ha1
        subst hb1
        exact fun k _ => rfl
      | some rules =>
        by_cases htr : truthy rules = false
        · rw [removeDuplicateRules_falsy _ routing rules hrt hrl htr] at hj2
          injection hj2 with h1
          subst h1
          refine ⟨fun k _ => rfl, fun r r2 ha hb => ?_⟩
          rw [hrt] at hb
          injection ha with ha1
          injection hb with hb1
          subst ha1
          subst hb1
          exact fun k _ => rfl
        · cases rules with
          | null => exact absurd rfl htr
          | bool b =>
            rw [removeDuplicateRules_error _ routing (Json.bool b) hrt hrl htr
              (fun xs h => Json.noConfusion h) (fun s h => Json.noConfusion h)] at hj2
            exact Except.noConfusion hj2
          | num n =>
            rw [removeDuplicateRules_error _ routing (Json.num n) hrt hrl htr
              (fun xs h => Json.noConfusion h) (fun s h => Json.noConfusion h)] at hj2
            exact Except.noConfusion hj2
          | obj fs2 =>
            rw [removeDuplicateRules_error _ routing (Json.obj fs2) hrt hrl htr
              (fun xs h => Json.noConfusion h) (fun s h => Json.noConfusion h)] at hj2
            exact Except.noConfusion hj2
          | arr xs =>
            rw [removeDuplicateRules_arr _ routing xs hrt hrl] at hj2
            injection hj2 with h1
            subst h1
            constructor
            · intro k hk
              exact getField_setField_ne fields "routing" k _ hk
            · intro r r2 ha hb
              injection ha with ha1
              subst ha1
              rw [getField_setField_self] at hb
              injection hb with hb1
              subst hb1
              intro k hk
              exact getField_setField_gen_ne routing "rules" k _ _ hrl hk
          | str s =>
            rw [removeDuplicateRules_str _ routing s hrt hrl htr] at hj2
            injection hj2 with h1
            subst h1
            constructor
            · intro k hk
              exact getField_setField_ne fields "routing" k _ hk
            · intro r r2 ha hb
              injection ha with ha1
              subst ha1
              rw [getField_setField_self] at hb
              injection hb with hb1
              subst hb1
              intro k hk
              exact getField_setField_gen_ne routing "rules" k _ _ hrl hk
  · intro hnone
    cases hrt : getField (Json.obj fields) "routing" with
    | none => exact removeDuplicateRules_no_routing _ hrt
    | some routing =>
      rw [hrt] at hnone
      simp only [Option.bind] at hnone
      exact removeDuplicateRules_no_rules _ routing hrt hnone

/-- Witness for claim C10 on a concrete document without `routing.rules`. -/
theorem claim_C10_frame_witness :
    ((∀ k, k ≠ "routing" →
        getField (Json.obj [("a", Json.num 1)]) k
          = getField (Json.obj [("a", Json.num 1)]) k) ∧
      (∀ routing routing2,
        getField (Json.obj [("a", Json.num 1)]) "routing" = some routing →
        getField (Json.obj [("a", Json.num 1)]) "routing" = some routing2 →
        ∀ k, k ≠ "rules" → getField routing2 k = getField routing k)) ∧
    removeDuplicateRules (Json.obj [("a", Json.num 1)])
      = Except.ok (Json.obj [("a", Json.num 1)]) :=
  ⟨(claim_C10_frame [("a", Json.num 1)]).1 (Json.obj [("a", Json.num 1)]) rfl,
   (claim_C10_frame [("a", Json.num 1)]).2 rfl⟩

end XuiGeoip
